import Mathlib

/-!
# Sampling kernels of the path tracer (`src/sampling.h`)

A shallow embedding of the four sampling routines of `sampling.h`

* `calculateRandomDirectionInHemisphere`
* `sampling_SquareToSphereUniform`
* `sampling_SquareToDiskConcentric`
* `SphereSample`

The routines are written once, over an arbitrary ordered field `α` of scalars
equipped with the handful of `<cmath>` functions the source calls (`CMath`).
The properties are then proved for the exact-real reading of the arithmetic,
that is for `α = ℝ` with `sqrt`, `cos`, `sin`, `acos` the real functions.
-/

namespace PathTracer

/-! ## Data model -/

/-- Two scalar components, `glm::vec2`. -/
structure Vec2 (α : Type) where
  x : α
  y : α

/-- Three scalar components, `glm::vec3`. -/
structure Vec3 (α : Type) where
  x : α
  y : α
  z : α

/-- A 2D sample point (`typedef glm::vec2 Point2f`). -/
abbrev Point2f (α : Type) : Type := Vec2 α

/-- A 3D point (`typedef glm::vec3 Point3f`). -/
abbrev Point3f (α : Type) : Type := Vec3 α

/-- A colour triple (`typedef glm::vec3 Color3f`). -/
abbrev Color3f (α : Type) : Type := Vec3 α

/-- The scalar functions of the C math library that `sampling.h` calls, and the
constant `PI`.

Modelled from the spec: the macro `PI` is declared outside `sampling.h`; the
specification reads it as the number pi. -/
class CMath (α : Type) where
  /-- The function `sqrt`. -/
  sqrt : α → α
  /-- The function `cos`. -/
  cos : α → α
  /-- The function `sin`. -/
  sin : α → α
  /-- The function `acos`. -/
  acos : α → α
  /-- The constant `PI`. -/
  PI : α

/-- The exact-real reading of the arithmetic: real square root, cosine, sine,
arc cosine and the number pi. -/
noncomputable instance instCMathReal : CMath ℝ where
  sqrt := Real.sqrt
  cos := Real.cos
  sin := Real.sin
  acos := Real.arccos
  PI := Real.pi

section Defs

variable {α : Type} [LinearOrderedField α] [CMath α]

/-- Modelled from the spec: the macro `TWO_PI` is declared outside `sampling.h`;
the specification reads `around = u2 * 2π`. -/
def TWO_PI : α := 2 * CMath.PI

/-- Modelled from the spec: the macro `SQRT_OF_ONE_THIRD` is declared outside
`sampling.h`; the specification reads the test as `|n.x| < sqrt(1/3)`. -/
def SQRT_OF_ONE_THIRD : α := CMath.sqrt (1 / 3)

/-- Componentwise sum, `glm::vec3 operator+`. -/
instance instAddVec3 : Add (Vec3 α) where
  add a b := ⟨a.x + b.x, a.y + b.y, a.z + b.z⟩

/-- Scalar times vector, `glm::vec3 operator*(float, vec3)`. -/
instance instHMulVec3 : HMul α (Vec3 α) (Vec3 α) where
  hMul k v := ⟨k * v.x, k * v.y, k * v.z⟩

/-- Vector times scalar, `glm::vec3 operator*(vec3, float)`. -/
instance instHMulVec3Right : HMul (Vec3 α) α (Vec3 α) where
  hMul v k := ⟨v.x * k, v.y * k, v.z * k⟩

/-- The function `glm::dot` on `vec3`. -/
def dot (a b : Vec3 α) : α := a.x * b.x + a.y * b.y + a.z * b.z

/-- The function `glm::cross`. -/
def cross (a b : Vec3 α) : Vec3 α :=
  ⟨a.y * b.z - b.y * a.z, a.z * b.x - b.z * a.x, a.x * b.y - b.x * a.y⟩

/-- The function `glm::inversesqrt`: `1 / sqrt x`. -/
def inversesqrt (x : α) : α := 1 / CMath.sqrt x

/-- The function `glm::normalize`: `v * inversesqrt(dot(v, v))`. -/
def normalize (v : Vec3 α) : Vec3 α := v * inversesqrt (dot v v)

/-- The function `glm::length`: `sqrt(dot(v, v))`. -/
def length (v : Vec3 α) : α := CMath.sqrt (dot v v)

/-- Modelled from the spec: the uniform random-number source
(`thrust::default_random_engine`, declared outside this repository), an opaque
capability providing successive draws; its state is the sequence of draws it
will yield and the position of the draw cursor. -/
structure RandomEngine (α : Type) where
  /-- The successive draws of the engine. -/
  draws : Nat → α
  /-- The draw cursor: how many draws have been taken. -/
  cursor : Nat

/-- One draw `u01(rng)` of `thrust::uniform_real_distribution<float> u01(0, 1)`:
the value under the cursor, and the engine with its cursor advanced by one. -/
def u01 (rng : RandomEngine α) : α × RandomEngine α :=
  (rng.draws rng.cursor, { rng with cursor := rng.cursor + 1 })

/-- The engine, with its cursor at the start, whose first draw is `u1` and whose
every later draw is `u2`: the state in which the next two draws are `u1`, then
`u2`. -/
def twoDraws (u1 u2 : α) : RandomEngine α :=
  ⟨fun i => if i = 0 then u1 else u2, 0⟩

/-! ## `calculateRandomDirectionInHemisphere` -/

/-- The local `directionNotNormal` of `calculateRandomDirectionInHemisphere`
(lines 19-31): the axis chosen by the `SQRT_OF_ONE_THIRD` tests. -/
def directionNotNormal (normal : Vec3 α) : Vec3 α :=
  if |normal.x| < SQRT_OF_ONE_THIRD then
    ⟨1, 0, 0⟩
  else if |normal.y| < SQRT_OF_ONE_THIRD then
    ⟨0, 1, 0⟩
  else
    ⟨0, 0, 1⟩

/-- The local `perpendicularDirection1` (lines 34-35). -/
def perpendicularDirection1 (normal : Vec3 α) : Vec3 α :=
  normalize (cross normal (directionNotNormal normal))

/-- The local `perpendicularDirection2` (lines 36-37). -/
def perpendicularDirection2 (normal : Vec3 α) : Vec3 α :=
  normalize (cross normal (perpendicularDirection1 normal))

/-- The function `calculateRandomDirectionInHemisphere` (lines 6-42). The engine
is passed by reference in the source; here the advanced engine is returned next
to the direction. -/
def calculateRandomDirectionInHemisphere (normal : Vec3 α) (rng : RandomEngine α) :
    Vec3 α × RandomEngine α :=
  let d1 := u01 rng
  let up : α := CMath.sqrt d1.1
  let over : α := CMath.sqrt (1 - up * up)
  let d2 := u01 d1.2
  let around : α := d2.1 * TWO_PI
  (up * normal
      + (CMath.cos around * over) * perpendicularDirection1 normal
      + (CMath.sin around * over) * perpendicularDirection2 normal,
    d2.2)

/-! ## `sampling_SquareToSphereUniform` -/

/-- The function `sampling_SquareToSphereUniform` (lines 44-50). -/
def sampling_SquareToSphereUniform (sample : Point2f α) : Point3f α :=
  let z : α := 1 - 2 * sample.x
  let r : α := CMath.sqrt (max 0 (1 - z * z))
  let phi : α := 2 * CMath.PI * sample.y
  ⟨r * CMath.cos phi, r * CMath.sin phi, z⟩

/-! ## `sampling_SquareToDiskConcentric` -/

/-- The local `sampleOffset` of `sampling_SquareToDiskConcentric` (line 54):
`2.0f*sample - glm::vec2(1, 1)`. -/
def sampleOffset (sample : Point2f α) : Vec2 α :=
  ⟨2 * sample.x - 1, 2 * sample.y - 1⟩

/-- The function `sampling_SquareToDiskConcentric` (lines 52-72). -/
def sampling_SquareToDiskConcentric (sample : Point2f α) : Point3f α :=
  let sampleOffset : Vec2 α := sampleOffset sample
  if sampleOffset.x = 0 ∧ sampleOffset.y = 0 then
    ⟨0, 0, 0⟩
  else if |sampleOffset.x| > |sampleOffset.y| then
    let r : α := sampleOffset.x
    let theta : α := (CMath.PI / 4) * (sampleOffset.y / sampleOffset.x)
    r * (⟨CMath.cos theta, CMath.sin theta, 0⟩ : Vec3 α)
  else
    let r : α := sampleOffset.y
    let theta : α := (CMath.PI / 2) - (CMath.PI / 4) * (sampleOffset.x / sampleOffset.y)
    r * (⟨CMath.cos theta, CMath.sin theta, 0⟩ : Vec3 α)

/-- A division that fails on a zero divisor instead of returning a value. -/
def checkedDiv (a b : α) : Option α :=
  if b = 0 then none else some (a / b)

/-- The function `sampling_SquareToDiskConcentric` (lines 52-72) once more, with
each of its two divisions by a component of `sampleOffset` made fallible: the
result is `none` when a divisor is zero. -/
def sampling_SquareToDiskConcentric_checked (sample : Point2f α) : Option (Point3f α) :=
  let sampleOffset : Vec2 α := sampleOffset sample
  if sampleOffset.x = 0 ∧ sampleOffset.y = 0 then
    some ⟨0, 0, 0⟩
  else if |sampleOffset.x| > |sampleOffset.y| then
    let r : α := sampleOffset.x
    (checkedDiv sampleOffset.y sampleOffset.x).bind fun q =>
      let theta : α := (CMath.PI / 4) * q
      some (r * (⟨CMath.cos theta, CMath.sin theta, 0⟩ : Vec3 α))
  else
    let r : α := sampleOffset.y
    (checkedDiv sampleOffset.x sampleOffset.y).bind fun q =>
      let theta : α := (CMath.PI / 2) - (CMath.PI / 4) * q
      some (r * (⟨CMath.cos theta, CMath.sin theta, 0⟩ : Vec3 α))

/-- The locals `(r, theta)` of `sampling_SquareToDiskConcentric` as the branch
of lines 60-70 sets them, for the offset `sampleOffset`. -/
def sampling_SquareToDiskConcentric_r_theta (sampleOffset : Vec2 α) : α × α :=
  if |sampleOffset.x| > |sampleOffset.y| then
    (sampleOffset.x, (CMath.PI / 4) * (sampleOffset.y / sampleOffset.x))
  else
    (sampleOffset.y, (CMath.PI / 2) - (CMath.PI / 4) * (sampleOffset.x / sampleOffset.y))

/-! ## `SphereSample` -/

/-- The function `SphereSample` (lines 75-84). -/
def SphereSample (sample : Point2f α) : Color3f α :=
  let theta : α := 2 * CMath.PI * sample.x
  let phi : α := CMath.acos (1 - 2 * sample.y)
  let x : α := CMath.sin phi * CMath.cos theta
  let y : α := CMath.sin phi * CMath.sin theta
  let z : α := CMath.cos phi
  ⟨x, y, z⟩

end Defs

/-! ## Component lemmas -/

section Components

variable {α : Type} [LinearOrderedField α]

@[simp] theorem add_x (a b : Vec3 α) : (a + b).x = a.x + b.x := rfl

@[simp] theorem add_y (a b : Vec3 α) : (a + b).y = a.y + b.y := rfl

@[simp] theorem add_z (a b : Vec3 α) : (a + b).z = a.z + b.z := rfl

@[simp] theorem smul_x (k : α) (v : Vec3 α) : (k * v).x = k * v.x := rfl

@[simp] theorem smul_y (k : α) (v : Vec3 α) : (k * v).y = k * v.y := rfl

@[simp] theorem smul_z (k : α) (v : Vec3 α) : (k * v).z = k * v.z := rfl

@[simp] theorem mul_scalar_x (v : Vec3 α) (k : α) : (v * k).x = v.x * k := rfl

@[simp] theorem mul_scalar_y (v : Vec3 α) (k : α) : (v * k).y = v.y * k := rfl

@[simp] theorem mul_scalar_z (v : Vec3 α) (k : α) : (v * k).z = v.z * k := rfl

/-- In the else branch of the concentric map the divisor `sampleOffset.y` is not
zero: the offset is not the origin and `|x| ≤ |y|`. -/
theorem else_branch_divisor_ne_zero (x y : α) (h0 : ¬ (x = 0 ∧ y = 0))
    (h : ¬ (|x| > |y|)) : y ≠ 0 := by
  intro hy
  subst hy
  have hx : |x| ≤ 0 := by simpa using h
  exact h0 ⟨abs_eq_zero.mp (le_antisymm hx (abs_nonneg x)), rfl⟩

/-- In the first branch of the concentric map the divisor `sampleOffset.x` is
not zero: `|x| > |y| ≥ 0`. -/
theorem first_branch_divisor_ne_zero (x y : α) (h : |x| > |y|) : x ≠ 0 := by
  intro hx
  subst hx
  have : |y| < 0 := by simpa using h
  exact absurd (abs_nonneg y) (not_le.mpr this)

end Components

/-! ## The concentric disk map -/

section Disk

/-- The exact-real `sqrt` of `CMath`. -/
theorem cmath_sqrt (x : ℝ) : CMath.sqrt x = Real.sqrt x := rfl

/-- The exact-real `cos` of `CMath`. -/
theorem cmath_cos (x : ℝ) : CMath.cos x = Real.cos x := rfl

/-- The exact-real `sin` of `CMath`. -/
theorem cmath_sin (x : ℝ) : CMath.sin x = Real.sin x := rfl

/-- The exact-real `acos` of `CMath`. -/
theorem cmath_acos (x : ℝ) : CMath.acos x = Real.arccos x := rfl

/-- The exact-real `PI` of `CMath`. -/
theorem cmath_PI : (CMath.PI : ℝ) = Real.pi := rfl

/-- The squared distance from the origin of `r * (cos θ, sin θ)` is `r²`. -/
theorem polar_sq (r t : ℝ) : (r * Real.cos t) ^ 2 + (r * Real.sin t) ^ 2 = r ^ 2 := by
  have h := Real.cos_sq_add_sin_sq t
  calc (r * Real.cos t) ^ 2 + (r * Real.sin t) ^ 2
      = r ^ 2 * (Real.cos t ^ 2 + Real.sin t ^ 2) := by ring
    _ = r ^ 2 := by rw [h, mul_one]

/-- C1. For every sample `(s0, s1)` of `[0,1)²`, the point returned by
`sampling_SquareToDiskConcentric` lies in the closed unit disk of the plane
`z = 0`: `x² + y² ≤ 1` and `z = 0` (exact reals, `PI` the number pi). -/
theorem sampling_SquareToDiskConcentric_in_unit_disk (s0 s1 : ℝ)
    (h0 : 0 ≤ s0) (h0' : s0 < 1) (h1 : 0 ≤ s1) (h1' : s1 < 1) :
    (sampling_SquareToDiskConcentric (⟨s0, s1⟩ : Point2f ℝ)).x ^ 2
        + (sampling_SquareToDiskConcentric (⟨s0, s1⟩ : Point2f ℝ)).y ^ 2 ≤ 1
      ∧ (sampling_SquareToDiskConcentric (⟨s0, s1⟩ : Point2f ℝ)).z = 0 := by
  unfold sampling_SquareToDiskConcentric sampleOffset
  simp only [cmath_cos, cmath_sin, cmath_PI]
  split_ifs with ha hb
  · norm_num
  · refine ⟨?_, by simp⟩
    simp only [smul_x, smul_y]
    rw [polar_sq]
    nlinarith
  · refine ⟨?_, by simp⟩
    simp only [smul_x, smul_y]
    rw [polar_sq]
    nlinarith

/-- C1 at the sample `(3/4, 1/4)`. -/
theorem sampling_SquareToDiskConcentric_in_unit_disk_witness :
    (sampling_SquareToDiskConcentric (⟨3 / 4, 1 / 4⟩ : Point2f ℝ)).x ^ 2
        + (sampling_SquareToDiskConcentric (⟨3 / 4, 1 / 4⟩ : Point2f ℝ)).y ^ 2 ≤ 1
      ∧ (sampling_SquareToDiskConcentric (⟨3 / 4, 1 / 4⟩ : Point2f ℝ)).z = 0 :=
  sampling_SquareToDiskConcentric_in_unit_disk (3 / 4) (1 / 4)
    (by norm_num) (by norm_num) (by norm_num) (by norm_num)

/-- C8. `sampling_SquareToDiskConcentric` never divides by zero, whatever the
sample (inside or outside `[0,1)²`): the variant whose divisions fail on a zero
divisor always succeeds, with the value of the function itself; in the first
branch `sampleOffset.x ≠ 0`, and in the else branch, reached after the
`sampleOffset == (0,0)` early return, `sampleOffset.y ≠ 0`. -/
theorem sampling_SquareToDiskConcentric_no_division_by_zero (sample : Point2f ℝ) :
    sampling_SquareToDiskConcentric_checked sample
        = some (sampling_SquareToDiskConcentric sample)
      ∧ (|(sampleOffset sample).x| > |(sampleOffset sample).y| →
          (sampleOffset sample).x ≠ 0)
      ∧ (¬ ((sampleOffset sample).x = 0 ∧ (sampleOffset sample).y = 0) →
          ¬ (|(sampleOffset sample).x| > |(sampleOffset sample).y|) →
          (sampleOffset sample).y ≠ 0) := by
  refine ⟨?_, first_branch_divisor_ne_zero _ _, else_branch_divisor_ne_zero _ _⟩
  unfold sampling_SquareToDiskConcentric_checked sampling_SquareToDiskConcentric
  simp only []
  split_ifs with h0 hb
  · rfl
  · have hx := first_branch_divisor_ne_zero _ _ hb
    simp [checkedDiv, hx]
  · have hy := else_branch_divisor_ne_zero _ _ h0 hb
    simp [checkedDiv, hy]

/-- C10. The sample `(0.5, 0.5)`, whose offset is `(0, 0)`, is sent to exactly
the origin `(0, 0, 0)`. -/
theorem sampling_SquareToDiskConcentric_center :
    sampleOffset (⟨1 / 2, 1 / 2⟩ : Point2f ℝ) = ⟨0, 0⟩
      ∧ sampling_SquareToDiskConcentric (⟨1 / 2, 1 / 2⟩ : Point2f ℝ) = ⟨0, 0, 0⟩ := by
  have h : sampleOffset (⟨1 / 2, 1 / 2⟩ : Point2f ℝ) = ⟨0, 0⟩ := by
    simp [sampleOffset]
  refine ⟨h, ?_⟩
  unfold sampling_SquareToDiskConcentric
  simp only [h, and_self, if_true]

end Disk

/-! ## The two sphere samplers -/

section Sphere

/-- For `s0` in `[0,1]` the quantity under the square root of
`sampling_SquareToSphereUniform` is not negative. -/
theorem one_sub_z_sq_nonneg (s0 : ℝ) (h0 : 0 ≤ s0) (h1 : s0 ≤ 1) :
    0 ≤ 1 - (1 - 2 * s0) * (1 - 2 * s0) := by
  nlinarith [mul_nonneg h0 (sub_nonneg.mpr h1)]

/-- The squared length of `(r cos φ, r sin φ, z)` when `r² = 1 - z²`. -/
theorem sphere_point_sq (r z t : ℝ) (hr : r ^ 2 = 1 - z * z) :
    (r * Real.cos t) ^ 2 + (r * Real.sin t) ^ 2 + z ^ 2 = 1 := by
  rw [polar_sq, hr]
  ring

/-- C4. For every sample `(s0, s1)` with `s0` in `[0,1)`, whatever `s1` (so for
every sample of `[0,1)²`), the point returned by
`sampling_SquareToSphereUniform` lies on the unit sphere, `x² + y² + z² = 1`,
and the clamp `max(0, 1 - z²)` leaves `1 - z²` unchanged. -/
theorem sampling_SquareToSphereUniform_on_unit_sphere (s0 s1 : ℝ)
    (h0 : 0 ≤ s0) (h0' : s0 < 1) :
    (sampling_SquareToSphereUniform (⟨s0, s1⟩ : Point2f ℝ)).x ^ 2
        + (sampling_SquareToSphereUniform (⟨s0, s1⟩ : Point2f ℝ)).y ^ 2
        + (sampling_SquareToSphereUniform (⟨s0, s1⟩ : Point2f ℝ)).z ^ 2 = 1
      ∧ max 0 (1 - (1 - 2 * s0) * (1 - 2 * s0)) = 1 - (1 - 2 * s0) * (1 - 2 * s0) := by
  have hz := one_sub_z_sq_nonneg s0 h0 h0'.le
  have hmax := max_eq_right hz
  refine ⟨?_, hmax⟩
  unfold sampling_SquareToSphereUniform
  simp only [cmath_cos, cmath_sin, cmath_sqrt, cmath_PI]
  apply sphere_point_sq
  rw [hmax, Real.sq_sqrt hz]

/-- C4 at the sample `(1/4, 3/4)`. -/
theorem sampling_SquareToSphereUniform_on_unit_sphere_witness :
    (sampling_SquareToSphereUniform (⟨1 / 4, 3 / 4⟩ : Point2f ℝ)).x ^ 2
        + (sampling_SquareToSphereUniform (⟨1 / 4, 3 / 4⟩ : Point2f ℝ)).y ^ 2
        + (sampling_SquareToSphereUniform (⟨1 / 4, 3 / 4⟩ : Point2f ℝ)).z ^ 2 = 1
      ∧ max 0 (1 - (1 - 2 * (1 / 4 : ℝ)) * (1 - 2 * (1 / 4)))
          = 1 - (1 - 2 * (1 / 4 : ℝ)) * (1 - 2 * (1 / 4)) :=
  sampling_SquareToSphereUniform_on_unit_sphere (1 / 4) (3 / 4) (by norm_num) (by norm_num)

/-- C5. For every sample `(s0, s1)`, in particular for every sample of
`[0,1)²`, the point returned by `SphereSample` lies on the unit sphere:
`x² + y² + z² = 1`. -/
theorem SphereSample_on_unit_sphere (s0 s1 : ℝ) :
    (SphereSample (⟨s0, s1⟩ : Point2f ℝ)).x ^ 2
        + (SphereSample (⟨s0, s1⟩ : Point2f ℝ)).y ^ 2
        + (SphereSample (⟨s0, s1⟩ : Point2f ℝ)).z ^ 2 = 1 := by
  unfold SphereSample
  simp only [cmath_cos, cmath_sin, cmath_acos, cmath_PI]
  apply sphere_point_sq
  have h := Real.sin_sq_add_cos_sq (Real.arccos (1 - 2 * s1))
  nlinarith

/-- C6. The two sphere samplers agree up to exchanging the two sample axes: for
every `a` and every `b` in `[0,1)` (so for every `(a, b)` of `[0,1)²`),
`SphereSample (a, b)` and `sampling_SquareToSphereUniform (b, a)` are the same
point, all three components equal. -/
theorem SphereSample_eq_sampling_SquareToSphereUniform_swap (a b : ℝ)
    (hb : 0 ≤ b) (hb' : b < 1) :
    SphereSample (⟨a, b⟩ : Point2f ℝ)
      = sampling_SquareToSphereUniform (⟨b, a⟩ : Point2f ℝ) := by
  have hz := one_sub_z_sq_nonneg b hb hb'.le
  have hmax := max_eq_right hz
  have hsin : Real.sin (Real.arccos (1 - 2 * b))
      = Real.sqrt (1 - (1 - 2 * b) * (1 - 2 * b)) := by
    rw [Real.sin_arccos, sq]
  have hcos : Real.cos (Real.arccos (1 - 2 * b)) = 1 - 2 * b :=
    Real.cos_arccos (by linarith) (by linarith)
  unfold SphereSample sampling_SquareToSphereUniform
  simp only [cmath_cos, cmath_sin, cmath_acos, cmath_sqrt, cmath_PI, hmax, hsin, hcos]

/-- C6 at `(a, b) = (1/8, 3/4)`. -/
theorem SphereSample_eq_sampling_SquareToSphereUniform_swap_witness :
    SphereSample (⟨1 / 8, 3 / 4⟩ : Point2f ℝ)
      = sampling_SquareToSphereUniform (⟨3 / 4, 1 / 8⟩ : Point2f ℝ) :=
  SphereSample_eq_sampling_SquareToSphereUniform_swap (1 / 8) (3 / 4)
    (by norm_num) (by norm_num)

end Sphere

/-! ## The hemisphere sampler -/

section Hemisphere

/-- The square of `SQRT_OF_ONE_THIRD` is one third. -/
theorem SQRT_OF_ONE_THIRD_sq : (SQRT_OF_ONE_THIRD : ℝ) ^ 2 = 1 / 3 := by
  unfold SQRT_OF_ONE_THIRD
  rw [cmath_sqrt]
  exact Real.sq_sqrt (by norm_num)

/-- The constant `SQRT_OF_ONE_THIRD` is positive. -/
theorem SQRT_OF_ONE_THIRD_pos : 0 < (SQRT_OF_ONE_THIRD : ℝ) := by
  unfold SQRT_OF_ONE_THIRD
  rw [cmath_sqrt]
  exact Real.sqrt_pos.mpr (by norm_num)

/-- A component that passes the test `|c| < SQRT_OF_ONE_THIRD` has square below
one third. -/
theorem sq_lt_of_abs_lt (c : ℝ) (h : |c| < SQRT_OF_ONE_THIRD) : c ^ 2 < 1 / 3 := by
  have h2 := SQRT_OF_ONE_THIRD_sq
  have h3 := abs_nonneg c
  have h4 := sq_abs c
  nlinarith

/-- A component that fails the test `|c| < SQRT_OF_ONE_THIRD` has square at
least one third. -/
theorem sq_ge_of_not_abs_lt (c : ℝ) (h : ¬ |c| < SQRT_OF_ONE_THIRD) : 1 / 3 ≤ c ^ 2 := by
  have h1 := not_lt.mp h
  have h2 := SQRT_OF_ONE_THIRD_sq
  have h3 := SQRT_OF_ONE_THIRD_pos
  have h4 := sq_abs c
  nlinarith

/-- The chosen axis is a coordinate axis, and the component of a unit normal
along it has square at most one third. -/
theorem directionNotNormal_dot_sq (n : Vec3 ℝ) (hn : n.x ^ 2 + n.y ^ 2 + n.z ^ 2 = 1) :
    dot (directionNotNormal n) (directionNotNormal n) = 1
      ∧ dot n (directionNotNormal n) ^ 2 ≤ 1 / 3 := by
  unfold directionNotNormal
  split_ifs with hx hy
  · have := sq_lt_of_abs_lt _ hx
    simp only [dot]
    constructor
    · norm_num
    · nlinarith
  · have := sq_lt_of_abs_lt _ hy
    simp only [dot]
    constructor
    · norm_num
    · nlinarith
  · have h1 := sq_ge_of_not_abs_lt _ hx
    have h2 := sq_ge_of_not_abs_lt _ hy
    simp only [dot]
    constructor
    · norm_num
    · nlinarith

/-- Lagrange's identity: `|a × b|² = |a|²|b|² - (a·b)²`. -/
theorem dot_cross_self (a b : Vec3 ℝ) :
    dot (cross a b) (cross a b) = dot a a * dot b b - dot a b ^ 2 := by
  simp only [dot, cross]
  ring

/-- The cross product is perpendicular to its first factor. -/
theorem dot_left_cross (a b : Vec3 ℝ) : dot a (cross a b) = 0 := by
  simp only [dot, cross]
  ring

/-- The cross product is perpendicular to its second factor. -/
theorem dot_right_cross (a b : Vec3 ℝ) : dot b (cross a b) = 0 := by
  simp only [dot, cross]
  ring

/-- The dot product is symmetric. -/
theorem dot_comm (a b : Vec3 ℝ) : dot a b = dot b a := by
  simp only [dot]
  ring

/-- The dot product with a normalized vector. -/
theorem dot_normalize (v w : Vec3 ℝ) :
    dot v (normalize w) = dot v w * inversesqrt (dot w w) := by
  simp only [dot, normalize, mul_scalar_x, mul_scalar_y, mul_scalar_z]
  ring

/-- A vector of positive squared length is normalized to a unit vector. -/
theorem dot_normalize_self (w : Vec3 ℝ) (hw : 0 < dot w w) :
    dot (normalize w) (normalize w) = 1 := by
  have hs : Real.sqrt (dot w w) ^ 2 = dot w w := Real.sq_sqrt hw.le
  have hk : inversesqrt (dot w w) ^ 2 * dot w w = 1 := by
    unfold inversesqrt
    rw [cmath_sqrt, one_div, inv_pow, hs]
    exact inv_mul_cancel₀ hw.ne'
  calc dot (normalize w) (normalize w)
      = inversesqrt (dot w w) ^ 2 * dot w w := by
        simp only [dot, normalize, mul_scalar_x, mul_scalar_y, mul_scalar_z]
        ring
    _ = 1 := hk

/-- The squared length of `cross(normal, directionNotNormal)` is at least two
thirds for a unit normal. -/
theorem cross_directionNotNormal_sq (n : Vec3 ℝ) (hn : n.x ^ 2 + n.y ^ 2 + n.z ^ 2 = 1) :
    2 / 3 ≤ dot (cross n (directionNotNormal n)) (cross n (directionNotNormal n)) := by
  obtain ⟨h1, h2⟩ := directionNotNormal_dot_sq n hn
  have hnn : dot n n = 1 := by
    simp only [dot]
    linarith
  rw [dot_cross_self, hnn, h1]
  linarith

/-- For a unit normal, `normal`, `perpendicularDirection1` and
`perpendicularDirection2` are pairwise perpendicular unit vectors. -/
theorem basis_orthonormal (n : Vec3 ℝ) (hn : n.x ^ 2 + n.y ^ 2 + n.z ^ 2 = 1) :
    dot n n = 1
      ∧ dot (perpendicularDirection1 n) (perpendicularDirection1 n) = 1
      ∧ dot (perpendicularDirection2 n) (perpendicularDirection2 n) = 1
      ∧ dot n (perpendicularDirection1 n) = 0
      ∧ dot n (perpendicularDirection2 n) = 0
      ∧ dot (perpendicularDirection1 n) (perpendicularDirection2 n) = 0 := by
  have hnn : dot n n = 1 := by
    simp only [dot]
    linarith
  have hw := cross_directionNotNormal_sq n hn
  have h11 : dot (perpendicularDirection1 n) (perpendicularDirection1 n) = 1 :=
    dot_normalize_self _ (by linarith)
  have hn1 : dot n (perpendicularDirection1 n) = 0 := by
    unfold perpendicularDirection1
    rw [dot_normalize, dot_left_cross, zero_mul]
  have hw2 : dot (cross n (perpendicularDirection1 n)) (cross n (perpendicularDirection1 n))
      = 1 := by
    rw [dot_cross_self, hnn, h11, hn1]
    norm_num
  have h22 : dot (perpendicularDirection2 n) (perpendicularDirection2 n) = 1 :=
    dot_normalize_self _ (by rw [hw2]; norm_num)
  have hn2 : dot n (perpendicularDirection2 n) = 0 := by
    unfold perpendicularDirection2
    rw [dot_normalize, dot_left_cross, zero_mul]
  have h12 : dot (perpendicularDirection1 n) (perpendicularDirection2 n) = 0 := by
    unfold perpendicularDirection2
    rw [dot_normalize, dot_right_cross, zero_mul]
  exact ⟨hnn, h11, h22, hn1, hn2, h12⟩

/-- The dot product of two combinations of three vectors. -/
theorem dot_combination (a b c : ℝ) (u v w p : Vec3 ℝ) :
    dot (a * u + b * v + c * w) p = a * dot u p + b * dot v p + c * dot w p := by
  simp only [dot, add_x, add_y, add_z, smul_x, smul_y, smul_z]
  ring

/-- The squared length of a combination of three vectors. -/
theorem dot_combination_self (a b c : ℝ) (u v w : Vec3 ℝ) :
    dot (a * u + b * v + c * w) (a * u + b * v + c * w)
      = a ^ 2 * dot u u + b ^ 2 * dot v v + c ^ 2 * dot w w
        + 2 * (a * b) * dot u v + 2 * (a * c) * dot u w + 2 * (b * c) * dot v w := by
  simp only [dot, add_x, add_y, add_z, smul_x, smul_y, smul_z]
  ring

/-- The direction returned for the draws `u1`, `u2` under the cursor. -/
theorem calculateRandomDirectionInHemisphere_fst (n : Vec3 ℝ) (rng : RandomEngine ℝ) :
    (calculateRandomDirectionInHemisphere n rng).1
      = Real.sqrt (rng.draws rng.cursor) * n
        + (Real.cos (rng.draws (rng.cursor + 1) * (2 * Real.pi))
            * Real.sqrt (1 - Real.sqrt (rng.draws rng.cursor)
                * Real.sqrt (rng.draws rng.cursor)))
          * perpendicularDirection1 n
        + (Real.sin (rng.draws (rng.cursor + 1) * (2 * Real.pi))
            * Real.sqrt (1 - Real.sqrt (rng.draws rng.cursor)
                * Real.sqrt (rng.draws rng.cursor)))
          * perpendicularDirection2 n := rfl

/-- The squares of the three coefficients of the returned combination add up to
one when the first draw lies in `[0,1]`. -/
theorem coefficients_sq (u1 a : ℝ) (h0 : 0 ≤ u1) (h1 : u1 ≤ 1) :
    Real.sqrt u1 ^ 2
      + (Real.cos a * Real.sqrt (1 - Real.sqrt u1 * Real.sqrt u1)) ^ 2
      + (Real.sin a * Real.sqrt (1 - Real.sqrt u1 * Real.sqrt u1)) ^ 2 = 1 := by
  have hup : Real.sqrt u1 * Real.sqrt u1 = u1 := Real.mul_self_sqrt h0
  have hover : Real.sqrt (1 - u1) ^ 2 = 1 - u1 := Real.sq_sqrt (by linarith)
  have hcs := Real.cos_sq_add_sin_sq a
  rw [hup, sq (Real.sqrt u1), hup, mul_pow, mul_pow, hover]
  calc u1 + Real.cos a ^ 2 * (1 - u1) + Real.sin a ^ 2 * (1 - u1)
      = u1 + (Real.cos a ^ 2 + Real.sin a ^ 2) * (1 - u1) := by ring
    _ = 1 := by rw [hcs]; ring

/-- Real arc cosine is antitone. -/
theorem arccos_antitone (x y : ℝ) (h : x ≤ y) : Real.arccos y ≤ Real.arccos x := by
  rw [Real.arccos_eq_pi_div_two_sub_arcsin, Real.arccos_eq_pi_div_two_sub_arcsin]
  have := Real.monotone_arcsin h
  linarith

/-- C2. For every unit normal `n` and every engine whose next draw `u1` lies in
`[0,1)`, whatever the draw `u2` after it (so for every pair of draws of
`[0,1)`), the direction returned by `calculateRandomDirectionInHemisphere` has
length one. -/
theorem calculateRandomDirectionInHemisphere_unit_length (n : Vec3 ℝ)
    (rng : RandomEngine ℝ) (hn : n.x ^ 2 + n.y ^ 2 + n.z ^ 2 = 1)
    (hu1 : 0 ≤ rng.draws rng.cursor) (hu1' : rng.draws rng.cursor < 1) :
    length (calculateRandomDirectionInHemisphere n rng).1 = 1 := by
  obtain ⟨hnn, h11, h22, hn1, hn2, h12⟩ := basis_orthonormal n hn
  unfold length
  rw [cmath_sqrt, calculateRandomDirectionInHemisphere_fst, dot_combination_self,
    hnn, h11, h22, hn1, hn2, h12]
  simp only [mul_zero, add_zero, mul_one]
  rw [coefficients_sq _ _ hu1 hu1'.le, Real.sqrt_one]

/-- C2 at the normal `(0, 0, 1)` and an engine whose draws are all `1/4`. -/
theorem calculateRandomDirectionInHemisphere_unit_length_witness :
    length (calculateRandomDirectionInHemisphere (⟨0, 0, 1⟩ : Vec3 ℝ)
      ⟨fun _ => 1 / 4, 0⟩).1 = 1 :=
  calculateRandomDirectionInHemisphere_unit_length ⟨0, 0, 1⟩ ⟨fun _ => 1 / 4, 0⟩
    (by norm_num) (by norm_num) (by norm_num)

/-- C3. For every unit normal `n` and every engine, whatever its draws (so for
every pair of draws of `[0,1)`), the direction `d` returned by
`calculateRandomDirectionInHemisphere` satisfies `dot(d, n) = sqrt(u1)`, `u1`
the first draw, and so `dot(d, n) ≥ 0`: `d` lies in the hemisphere around
`n`. -/
theorem calculateRandomDirectionInHemisphere_in_hemisphere (n : Vec3 ℝ)
    (rng : RandomEngine ℝ) (hn : n.x ^ 2 + n.y ^ 2 + n.z ^ 2 = 1) :
    dot (calculateRandomDirectionInHemisphere n rng).1 n = Real.sqrt (rng.draws rng.cursor)
      ∧ 0 ≤ dot (calculateRandomDirectionInHemisphere n rng).1 n := by
  obtain ⟨hnn, h11, h22, hn1, hn2, h12⟩ := basis_orthonormal n hn
  have h : dot (calculateRandomDirectionInHemisphere n rng).1 n
      = Real.sqrt (rng.draws rng.cursor) := by
    rw [calculateRandomDirectionInHemisphere_fst, dot_combination, hnn,
      dot_comm (perpendicularDirection1 n) n, dot_comm (perpendicularDirection2 n) n,
      hn1, hn2]
    ring
  rw [h]
  exact ⟨rfl, Real.sqrt_nonneg _⟩

/-- C3 at the normal `(0, 1, 0)` and an engine whose draws are all `1/4`. -/
theorem calculateRandomDirectionInHemisphere_in_hemisphere_witness :
    dot (calculateRandomDirectionInHemisphere (⟨0, 1, 0⟩ : Vec3 ℝ) ⟨fun _ => 1 / 4, 0⟩).1
          ⟨0, 1, 0⟩ = Real.sqrt (1 / 4)
      ∧ 0 ≤ dot (calculateRandomDirectionInHemisphere (⟨0, 1, 0⟩ : Vec3 ℝ)
          ⟨fun _ => 1 / 4, 0⟩).1 ⟨0, 1, 0⟩ :=
  calculateRandomDirectionInHemisphere_in_hemisphere ⟨0, 1, 0⟩ ⟨fun _ => 1 / 4, 0⟩
    (by norm_num)

/-- C7. For every unit normal `n`, the axis `directionNotNormal` chosen by the
`SQRT_OF_ONE_THIRD` tests satisfies `|dot(n, axis)| ≤ sqrt(1/3)`: the angle
`arccos |dot(n, axis)|` between their lines is at least `arccos(sqrt(1/3))`,
`cross(n, axis)` is not the zero vector, and the divisor
`sqrt(dot(w, w))` of each of the two `normalize` calls is not zero. -/
theorem directionNotNormal_never_parallel (n : Vec3 ℝ)
    (hn : n.x ^ 2 + n.y ^ 2 + n.z ^ 2 = 1) :
    |dot n (directionNotNormal n)| ≤ Real.sqrt (1 / 3)
      ∧ Real.arccos (Real.sqrt (1 / 3)) ≤ Real.arccos |dot n (directionNotNormal n)|
      ∧ cross n (directionNotNormal n) ≠ ⟨0, 0, 0⟩
      ∧ (CMath.sqrt (dot (cross n (directionNotNormal n))
          (cross n (directionNotNormal n))) : ℝ) ≠ 0
      ∧ (CMath.sqrt (dot (cross n (perpendicularDirection1 n))
          (cross n (perpendicularDirection1 n))) : ℝ) ≠ 0 := by
  obtain ⟨_, hd⟩ := directionNotNormal_dot_sq n hn
  obtain ⟨hnn, h11, _, hn1, _, _⟩ := basis_orthonormal n hn
  have hw := cross_directionNotNormal_sq n hn
  have habs : |dot n (directionNotNormal n)| ≤ Real.sqrt (1 / 3) := Real.abs_le_sqrt hd
  have hw2 : dot (cross n (perpendicularDirection1 n)) (cross n (perpendicularDirection1 n))
      = 1 := by
    rw [dot_cross_self, hnn, h11, hn1]
    norm_num
  refine ⟨habs, arccos_antitone _ _ habs, ?_, ?_, ?_⟩
  · intro h0
    rw [h0] at hw
    simp only [dot] at hw
    norm_num at hw
  · rw [cmath_sqrt]
    exact (Real.sqrt_pos.mpr (by linarith)).ne'
  · rw [cmath_sqrt, hw2, Real.sqrt_one]
    exact one_ne_zero

/-- C7 at the normal `(1, 0, 0)`, for which the tests choose the y-axis. -/
theorem directionNotNormal_never_parallel_witness :
    |dot (⟨1, 0, 0⟩ : Vec3 ℝ) (directionNotNormal ⟨1, 0, 0⟩)| ≤ Real.sqrt (1 / 3)
      ∧ Real.arccos (Real.sqrt (1 / 3))
          ≤ Real.arccos |dot (⟨1, 0, 0⟩ : Vec3 ℝ) (directionNotNormal ⟨1, 0, 0⟩)|
      ∧ cross (⟨1, 0, 0⟩ : Vec3 ℝ) (directionNotNormal ⟨1, 0, 0⟩) ≠ ⟨0, 0, 0⟩
      ∧ (CMath.sqrt (dot (cross (⟨1, 0, 0⟩ : Vec3 ℝ) (directionNotNormal ⟨1, 0, 0⟩))
          (cross (⟨1, 0, 0⟩ : Vec3 ℝ) (directionNotNormal ⟨1, 0, 0⟩))) : ℝ) ≠ 0
      ∧ (CMath.sqrt (dot (cross (⟨1, 0, 0⟩ : Vec3 ℝ) (perpendicularDirection1 ⟨1, 0, 0⟩))
          (cross (⟨1, 0, 0⟩ : Vec3 ℝ) (perpendicularDirection1 ⟨1, 0, 0⟩))) : ℝ) ≠ 0 :=
  directionNotNormal_never_parallel ⟨1, 0, 0⟩ (by norm_num)

/-! ### Distribution of the returned direction -/

open MeasureTheory in
/-- The part of `[0,1)` below a threshold `q` of `[0,1]` has length `q`. -/
theorem volume_unit_below (q : ℝ) (h1 : q ≤ 1) :
    volume {x : ℝ | 0 ≤ x ∧ x < 1 ∧ x ≤ q} = ENNReal.ofReal q := by
  apply le_antisymm
  · calc volume {x : ℝ | 0 ≤ x ∧ x < 1 ∧ x ≤ q}
        ≤ volume (Set.Icc 0 q) := measure_mono (fun x hx => ⟨hx.1, hx.2.2⟩)
      _ = ENNReal.ofReal q := by rw [Real.volume_Icc, sub_zero]
  · calc ENNReal.ofReal q = volume (Set.Ico 0 q) := by rw [Real.volume_Ico, sub_zero]
      _ ≤ volume {x : ℝ | 0 ≤ x ∧ x < 1 ∧ x ≤ q} :=
        measure_mono (fun x hx => ⟨hx.1, lt_of_lt_of_le hx.2 h1, hx.2.le⟩)

open MeasureTheory in
/-- The area of a rectangle of the plane is the product of the lengths of its
sides. -/
theorem volume_rectangle (A B : Set ℝ) :
    volume (A ×ˢ B) = volume A * volume B := by
  rw [Measure.volume_eq_prod, Measure.prod_prod]

open MeasureTheory in
/-- The part of `[0,1)` above a threshold `q ≥ 0` has length `1 - q`. -/
theorem volume_unit_above (q : ℝ) (h0 : 0 ≤ q) :
    volume {x : ℝ | 0 ≤ x ∧ x < 1 ∧ q ≤ x} = ENNReal.ofReal (1 - q) := by
  have hset : {x : ℝ | 0 ≤ x ∧ x < 1 ∧ q ≤ x} = Set.Ico q 1 := by
    ext x
    simp only [Set.mem_setOf_eq, Set.mem_Ico]
    constructor
    · rintro ⟨_, h1, h2⟩
      exact ⟨h2, h1⟩
    · rintro ⟨h2, h1⟩
      exact ⟨h0.trans h2, h1, h2⟩
  rw [hset, Real.volume_Ico]

/-- The integral of the density `cos θ / π` against the solid-angle element
`sin θ dθ dφ` over the cap of polar angle at most `a` and azimuth at most `s`. -/
theorem solid_angle_integral (a s : ℝ) :
    (∫ _φ in (0 : ℝ)..s, ∫ θ in (0 : ℝ)..a, (Real.cos θ / Real.pi) * Real.sin θ)
      = Real.sin a ^ 2 * (s / (2 * Real.pi)) := by
  have hinner : (∫ θ in (0 : ℝ)..a, (Real.cos θ / Real.pi) * Real.sin θ)
      = Real.sin a ^ 2 / 2 / Real.pi := by
    have h : (fun θ : ℝ => (Real.cos θ / Real.pi) * Real.sin θ)
        = fun θ : ℝ => (Real.sin θ * Real.cos θ) / Real.pi := by
      funext θ
      ring
    rw [h, intervalIntegral.integral_div, integral_sin_mul_cos₁, Real.sin_zero]
    ring
  rw [hinner, intervalIntegral.integral_const, smul_eq_mul]
  ring

/-- For an angle `a` of `[0, π]` and a cosine `x` of `[-1, 1]`, `arccos x ≤ a`
exactly when `cos a ≤ x`. -/
theorem arccos_le_iff_cos_le (x a : ℝ) (hx0 : -1 ≤ x) (hx1 : x ≤ 1) (ha0 : 0 ≤ a)
    (ha1 : a ≤ Real.pi) : Real.arccos x ≤ a ↔ Real.cos a ≤ x := by
  constructor
  · intro h
    have hc := Real.cos_le_cos_of_nonneg_of_le_pi (Real.arccos_nonneg x) ha1 h
    rwa [Real.cos_arccos hx0 hx1] at hc
  · intro h
    have h1 := arccos_antitone _ _ h
    rwa [Real.arccos_cos ha0 ha1] at h1

/-- For a draw `u1` of `[0,1)` and an angle `a` of `[0, π/2]`, the angle
`arccos (sqrt u1)` is at most `a` exactly when `u1 ≥ cos² a`. -/
theorem arccos_sqrt_le_iff (u1 a : ℝ) (h0 : 0 ≤ u1) (h1 : u1 < 1) (ha0 : 0 ≤ a)
    (ha1 : a ≤ Real.pi / 2) : Real.arccos (Real.sqrt u1) ≤ a ↔ Real.cos a ^ 2 ≤ u1 := by
  have hpi := Real.pi_pos
  have hs0 : 0 ≤ Real.sqrt u1 := Real.sqrt_nonneg u1
  have hs1 : Real.sqrt u1 ≤ 1 := by
    rw [Real.sqrt_le_left zero_le_one]
    linarith
  have hcos : 0 ≤ Real.cos a :=
    Real.cos_nonneg_of_neg_pi_div_two_le_of_le (by linarith) ha1
  rw [arccos_le_iff_cos_le _ _ (by linarith) hs1 ha0 (by linarith)]
  exact Real.le_sqrt hcos h0

/-- The coordinates of the returned direction in the frame
`(perpendicularDirection1, perpendicularDirection2, normal)`, for the draws
`u1 ≥ 0` and `u2`. -/
theorem direction_frame_coordinates (n : Vec3 ℝ) (hn : n.x ^ 2 + n.y ^ 2 + n.z ^ 2 = 1)
    (u1 u2 : ℝ) (h0 : 0 ≤ u1) :
    dot (calculateRandomDirectionInHemisphere n (twoDraws u1 u2)).1 n = Real.sqrt u1
      ∧ dot (calculateRandomDirectionInHemisphere n (twoDraws u1 u2)).1
          (perpendicularDirection1 n)
        = Real.cos (u2 * (2 * Real.pi)) * Real.sqrt (1 - u1)
      ∧ dot (calculateRandomDirectionInHemisphere n (twoDraws u1 u2)).1
          (perpendicularDirection2 n)
        = Real.sin (u2 * (2 * Real.pi)) * Real.sqrt (1 - u1) := by
  obtain ⟨hnn, h11, h22, hn1, hn2, h12⟩ := basis_orthonormal n hn
  have hup : Real.sqrt u1 * Real.sqrt u1 = u1 := Real.mul_self_sqrt h0
  have hd : (calculateRandomDirectionInHemisphere n (twoDraws u1 u2)).1
      = Real.sqrt u1 * n
        + (Real.cos (u2 * (2 * Real.pi)) * Real.sqrt (1 - u1)) * perpendicularDirection1 n
        + (Real.sin (u2 * (2 * Real.pi)) * Real.sqrt (1 - u1)) * perpendicularDirection2 n := by
    rw [calculateRandomDirectionInHemisphere_fst]
    simp only [twoDraws, if_true, hup]
    rfl
  rw [hd, dot_combination, dot_combination, dot_combination, hnn, h11, h22, hn1, h12,
    dot_comm (perpendicularDirection1 n) n, dot_comm (perpendicularDirection2 n) n,
    dot_comm (perpendicularDirection2 n) (perpendicularDirection1 n), hn1, hn2, h12]
  refine ⟨by ring, by ring, by ring⟩

open MeasureTheory in
/-- C9. For a unit normal `n`, with the two draws `(u1, u2)` uniform and
independent on `[0,1)` (the Lebesgue measure of the unit square), the returned
direction `d` is cosine-weighted over the hemisphere around `n`.

* In the orthonormal frame `(t1, t2, n)` the direction has the spherical
  coordinates `dot(d, n) = sqrt(u1)`, `dot(d, t1) = cos(2π u2) sqrt(1 - u1)`
  and `dot(d, t2) = sin(2π u2) sqrt(1 - u1)`.
* The joint distribution function of the cosine `dot(d, n)` and the azimuth
  `2π u2` is the product `t² · s / (2π)`, for `t` in `[0,1]` and `s` in
  `[0, 2π]`: the cosine has distribution function `t²` (take `s = 2π`), the
  azimuth is uniform on `[0, 2π)` (take `t = 1`), and the two are independent.
* The probability that the angle `theta = arccos(dot(d, n))` between `d` and
  `n` is at most `a` and the azimuth at most `s` is the integral of the density
  `cos(theta) / π` against the solid-angle element `sin(theta) dtheta dphi`
  over that part of the hemisphere, for `a` in `[0, π/2]` and `s` in
  `[0, 2π]`. -/
theorem calculateRandomDirectionInHemisphere_cosine_weighted (n : Vec3 ℝ)
    (hn : n.x ^ 2 + n.y ^ 2 + n.z ^ 2 = 1) :
    (∀ u1 u2 : ℝ, 0 ≤ u1 → u1 < 1 →
        dot (calculateRandomDirectionInHemisphere n (twoDraws u1 u2)).1 n = Real.sqrt u1
          ∧ dot (calculateRandomDirectionInHemisphere n (twoDraws u1 u2)).1
              (perpendicularDirection1 n)
            = Real.cos (u2 * (2 * Real.pi)) * Real.sqrt (1 - u1)
          ∧ dot (calculateRandomDirectionInHemisphere n (twoDraws u1 u2)).1
              (perpendicularDirection2 n)
            = Real.sin (u2 * (2 * Real.pi)) * Real.sqrt (1 - u1))
      ∧ (∀ t s : ℝ, 0 ≤ t → t ≤ 1 → 0 ≤ s → s ≤ 2 * Real.pi →
        volume {u : ℝ × ℝ | (0 ≤ u.1 ∧ u.1 < 1) ∧ (0 ≤ u.2 ∧ u.2 < 1)
            ∧ dot (calculateRandomDirectionInHemisphere n (twoDraws u.1 u.2)).1 n ≤ t
            ∧ u.2 * (2 * Real.pi) ≤ s}
          = ENNReal.ofReal (t ^ 2 * (s / (2 * Real.pi))))
      ∧ (∀ a s : ℝ, 0 ≤ a → a ≤ Real.pi / 2 → 0 ≤ s → s ≤ 2 * Real.pi →
        volume {u : ℝ × ℝ | (0 ≤ u.1 ∧ u.1 < 1) ∧ (0 ≤ u.2 ∧ u.2 < 1)
            ∧ Real.arccos
                (dot (calculateRandomDirectionInHemisphere n (twoDraws u.1 u.2)).1 n) ≤ a
            ∧ u.2 * (2 * Real.pi) ≤ s}
          = ENNReal.ofReal (∫ _φ in (0 : ℝ)..s, ∫ θ in (0 : ℝ)..a,
              (Real.cos θ / Real.pi) * Real.sin θ)) := by
  have hpi : (0 : ℝ) < 2 * Real.pi := by positivity
  refine ⟨fun u1 u2 h0 _ => direction_frame_coordinates n hn u1 u2 h0, ?_, ?_⟩
  · intro t s ht0 ht1 hs0 hs1
    have hset : {u : ℝ × ℝ | (0 ≤ u.1 ∧ u.1 < 1) ∧ (0 ≤ u.2 ∧ u.2 < 1)
          ∧ dot (calculateRandomDirectionInHemisphere n (twoDraws u.1 u.2)).1 n ≤ t
          ∧ u.2 * (2 * Real.pi) ≤ s}
        = {x : ℝ | 0 ≤ x ∧ x < 1 ∧ x ≤ t ^ 2}
            ×ˢ {x : ℝ | 0 ≤ x ∧ x < 1 ∧ x ≤ s / (2 * Real.pi)} := by
      ext ⟨a, b⟩
      simp only [Set.mem_setOf_eq, Set.mem_prod]
      constructor
      · rintro ⟨⟨ha0, ha1⟩, ⟨hb0, hb1⟩, hd, hb⟩
        rw [(direction_frame_coordinates n hn a b ha0).1, Real.sqrt_le_left ht0] at hd
        exact ⟨⟨ha0, ha1, hd⟩, hb0, hb1, (le_div_iff₀ hpi).mpr hb⟩
      · rintro ⟨⟨ha0, ha1, ha⟩, hb0, hb1, hb⟩
        refine ⟨⟨ha0, ha1⟩, ⟨hb0, hb1⟩, ?_, (le_div_iff₀ hpi).mp hb⟩
        rw [(direction_frame_coordinates n hn a b ha0).1, Real.sqrt_le_left ht0]
        exact ha
    have ht2 : t ^ 2 ≤ 1 := by nlinarith
    have hq : s / (2 * Real.pi) ≤ 1 := (div_le_one hpi).mpr hs1
    rw [hset, volume_rectangle, volume_unit_below _ ht2, volume_unit_below _ hq,
      ENNReal.ofReal_mul (sq_nonneg t)]
  · intro a s ha0 ha1 hs0 hs1
    have hset : {u : ℝ × ℝ | (0 ≤ u.1 ∧ u.1 < 1) ∧ (0 ≤ u.2 ∧ u.2 < 1)
          ∧ Real.arccos
              (dot (calculateRandomDirectionInHemisphere n (twoDraws u.1 u.2)).1 n) ≤ a
          ∧ u.2 * (2 * Real.pi) ≤ s}
        = {x : ℝ | 0 ≤ x ∧ x < 1 ∧ Real.cos a ^ 2 ≤ x}
            ×ˢ {x : ℝ | 0 ≤ x ∧ x < 1 ∧ x ≤ s / (2 * Real.pi)} := by
      ext ⟨x, y⟩
      simp only [Set.mem_setOf_eq, Set.mem_prod]
      constructor
      · rintro ⟨⟨hx0, hx1⟩, ⟨hy0, hy1⟩, hd, hy⟩
        rw [(direction_frame_coordinates n hn x y hx0).1,
          arccos_sqrt_le_iff x a hx0 hx1 ha0 ha1] at hd
        exact ⟨⟨hx0, hx1, hd⟩, hy0, hy1, (le_div_iff₀ hpi).mpr hy⟩
      · rintro ⟨⟨hx0, hx1, hx⟩, hy0, hy1, hy⟩
        refine ⟨⟨hx0, hx1⟩, ⟨hy0, hy1⟩, ?_, (le_div_iff₀ hpi).mp hy⟩
        rw [(direction_frame_coordinates n hn x y hx0).1,
          arccos_sqrt_le_iff x a hx0 hx1 ha0 ha1]
        exact hx
    have hq : s / (2 * Real.pi) ≤ 1 := (div_le_one hpi).mpr hs1
    have hsin : 1 - Real.cos a ^ 2 = Real.sin a ^ 2 := by
      have := Real.sin_sq_add_cos_sq a
      linarith
    rw [hset, volume_rectangle, volume_unit_above _ (sq_nonneg _), volume_unit_below _ hq,
      solid_angle_integral, hsin, ENNReal.ofReal_mul (sq_nonneg _)]

open MeasureTheory in
/-- C9 at the normal `(0, 0, 1)`, for the cosine threshold `1/2` and the azimuth
threshold `π`: one eighth of the draws. -/
theorem calculateRandomDirectionInHemisphere_cosine_weighted_witness :
    volume {u : ℝ × ℝ | (0 ≤ u.1 ∧ u.1 < 1) ∧ (0 ≤ u.2 ∧ u.2 < 1)
        ∧ dot (calculateRandomDirectionInHemisphere (⟨0, 0, 1⟩ : Vec3 ℝ)
            (twoDraws u.1 u.2)).1 ⟨0, 0, 1⟩ ≤ 1 / 2
        ∧ u.2 * (2 * Real.pi) ≤ Real.pi}
      = ENNReal.ofReal ((1 / 2) ^ 2 * (Real.pi / (2 * Real.pi))) :=
  (calculateRandomDirectionInHemisphere_cosine_weighted ⟨0, 0, 1⟩ (by norm_num)).2.1
    (1 / 2) Real.pi (by norm_num) (by norm_num) Real.pi_pos.le
    (by linarith [Real.pi_pos])

end Hemisphere

/-! ## Concrete scenarios and the branches of the concentric map -/

section Scenarios

/-- Past the early return, `sampling_SquareToDiskConcentric` returns
`r * (cos theta, sin theta, 0)` for the locals `(r, theta)` set by the branch. -/
theorem sampling_SquareToDiskConcentric_eq_r_theta (sample : Point2f ℝ)
    (h : ¬ ((sampleOffset sample).x = 0 ∧ (sampleOffset sample).y = 0)) :
    sampling_SquareToDiskConcentric sample
      = (sampling_SquareToDiskConcentric_r_theta (sampleOffset sample)).1
        * (⟨Real.cos (sampling_SquareToDiskConcentric_r_theta (sampleOffset sample)).2,
            Real.sin (sampling_SquareToDiskConcentric_r_theta (sampleOffset sample)).2,
            0⟩ : Vec3 ℝ) := by
  unfold sampling_SquareToDiskConcentric sampling_SquareToDiskConcentric_r_theta
  simp only [if_neg h]
  split_ifs with hb
  · rfl
  · rfl

/-- C11. `sampling_SquareToSphereUniform` sends the sample `(0, 0)` to the north
pole `(0, 0, 1)` (with `z = 1`, `r = 0`) and the sample `(1, 0)` to the south
pole `(0, 0, -1)` (with `z = -1`, `r = 0`). -/
theorem sampling_SquareToSphereUniform_poles :
    (CMath.sqrt (max 0 (1 - (1 - 2 * (0 : ℝ)) * (1 - 2 * 0))) = (0 : ℝ)
        ∧ sampling_SquareToSphereUniform (⟨0, 0⟩ : Point2f ℝ) = ⟨0, 0, 1⟩)
      ∧ (CMath.sqrt (max 0 (1 - (1 - 2 * (1 : ℝ)) * (1 - 2 * 1))) = (0 : ℝ)
        ∧ sampling_SquareToSphereUniform (⟨1, 0⟩ : Point2f ℝ) = ⟨0, 0, -1⟩) := by
  have h0 : max 0 (1 - (1 - 2 * (0 : ℝ)) * (1 - 2 * 0)) = 0 := by norm_num
  have h1 : max 0 (1 - (1 - 2 * (1 : ℝ)) * (1 - 2 * 1)) = 0 := by norm_num
  refine ⟨⟨?_, ?_⟩, ?_, ?_⟩
  · rw [h0, cmath_sqrt, Real.sqrt_zero]
  · unfold sampling_SquareToSphereUniform
    simp only [h0, cmath_sqrt, Real.sqrt_zero, zero_mul]
    norm_num
  · rw [h1, cmath_sqrt, Real.sqrt_zero]
  · unfold sampling_SquareToSphereUniform
    simp only [h1, cmath_sqrt, Real.sqrt_zero, zero_mul]
    norm_num

/-- The offset of the sample `(1, 1)` is `(1, 1)`. -/
theorem sampleOffset_one_one : sampleOffset (⟨1, 1⟩ : Point2f ℝ) = ⟨1, 1⟩ := by
  unfold sampleOffset
  norm_num

/-- The offset of the sample `(1, 0)` is `(1, -1)`. -/
theorem sampleOffset_one_zero : sampleOffset (⟨1, 0⟩ : Point2f ℝ) = ⟨1, -1⟩ := by
  unfold sampleOffset
  norm_num

/-- C12. For the sample `(1, 1)`, of offset `(1, 1)`,
`sampling_SquareToDiskConcentric` computes `r = 1` and `theta = π/4` and
returns `(cos(π/4), sin(π/4), 0) = (sqrt(2)/2, sqrt(2)/2, 0)`. -/
theorem sampling_SquareToDiskConcentric_one_one :
    sampleOffset (⟨1, 1⟩ : Point2f ℝ) = ⟨1, 1⟩
      ∧ sampling_SquareToDiskConcentric_r_theta (sampleOffset (⟨1, 1⟩ : Point2f ℝ))
        = (1, Real.pi / 4)
      ∧ sampling_SquareToDiskConcentric (⟨1, 1⟩ : Point2f ℝ)
        = ⟨Real.cos (Real.pi / 4), Real.sin (Real.pi / 4), 0⟩
      ∧ sampling_SquareToDiskConcentric (⟨1, 1⟩ : Point2f ℝ)
        = ⟨Real.sqrt 2 / 2, Real.sqrt 2 / 2, 0⟩ := by
  have hrt : sampling_SquareToDiskConcentric_r_theta (sampleOffset (⟨1, 1⟩ : Point2f ℝ))
      = (1, Real.pi / 4) := by
    rw [sampleOffset_one_one]
    unfold sampling_SquareToDiskConcentric_r_theta
    simp only [gt_iff_lt, lt_self_iff_false, if_false, cmath_PI, div_one, mul_one]
    congr 1
    ring
  have hne : ¬ ((sampleOffset (⟨1, 1⟩ : Point2f ℝ)).x = 0
      ∧ (sampleOffset (⟨1, 1⟩ : Point2f ℝ)).y = 0) := by
    rw [sampleOffset_one_one]
    norm_num
  have hval : sampling_SquareToDiskConcentric (⟨1, 1⟩ : Point2f ℝ)
      = ⟨Real.cos (Real.pi / 4), Real.sin (Real.pi / 4), 0⟩ := by
    rw [sampling_SquareToDiskConcentric_eq_r_theta _ hne, hrt]
    show (⟨1 * Real.cos (Real.pi / 4), 1 * Real.sin (Real.pi / 4), 1 * 0⟩ : Vec3 ℝ) = _
    simp only [one_mul]
  refine ⟨sampleOffset_one_one, hrt, hval, ?_⟩
  rw [hval, Real.cos_pi_div_four, Real.sin_pi_div_four]

/-- C13, as stated, fails. The test `|sampleOffset.x| > |sampleOffset.y|` is
strict, so a tie goes to the else branch. At the sample `(1, 1)` of the
specification's scenario the test of the first branch is false; at the sample
`(1, 0)`, of offset `(1, -1)`,
another non-zero tie, the locals are `r = sampleOffset.y = -1` and
`theta = π/2 + π/4`, not the `r = sampleOffset.x = 1` and
`theta = (π/4) * (sampleOffset.y / sampleOffset.x)` of the first branch. -/
theorem tie_first_branch_counterexample :
    ¬ (|(sampleOffset (⟨1, 1⟩ : Point2f ℝ)).x| > |(sampleOffset (⟨1, 1⟩ : Point2f ℝ)).y|)
      ∧ |(sampleOffset (⟨1, 0⟩ : Point2f ℝ)).x| = |(sampleOffset (⟨1, 0⟩ : Point2f ℝ)).y|
      ∧ ¬ ((sampleOffset (⟨1, 0⟩ : Point2f ℝ)).x = 0
          ∧ (sampleOffset (⟨1, 0⟩ : Point2f ℝ)).y = 0)
      ∧ (sampleOffset (⟨1, 0⟩ : Point2f ℝ)).x = 1
      ∧ sampling_SquareToDiskConcentric_r_theta (sampleOffset (⟨1, 0⟩ : Point2f ℝ))
        = (-1, Real.pi / 2 + Real.pi / 4)
      ∧ sampling_SquareToDiskConcentric_r_theta (sampleOffset (⟨1, 0⟩ : Point2f ℝ))
        ≠ ((sampleOffset (⟨1, 0⟩ : Point2f ℝ)).x,
            (Real.pi / 4) * ((sampleOffset (⟨1, 0⟩ : Point2f ℝ)).y
              / (sampleOffset (⟨1, 0⟩ : Point2f ℝ)).x)) := by
  have hrt : sampling_SquareToDiskConcentric_r_theta (sampleOffset (⟨1, 0⟩ : Point2f ℝ))
      = (-1, Real.pi / 2 + Real.pi / 4) := by
    rw [sampleOffset_one_zero]
    unfold sampling_SquareToDiskConcentric_r_theta
    simp only [abs_neg, gt_iff_lt, lt_self_iff_false, if_false, cmath_PI]
    congr 1
    ring
  refine ⟨?_, ?_, ?_, ?_, hrt, ?_⟩
  · rw [sampleOffset_one_one]
    exact lt_irrefl _
  · rw [sampleOffset_one_zero]
    simp only [abs_neg]
  · rw [sampleOffset_one_zero]
    norm_num
  · rw [sampleOffset_one_zero]
  · rw [hrt, sampleOffset_one_zero]
    intro h
    have h1 := congrArg Prod.fst h
    norm_num at h1

/-- C13, amended. A tie `|sampleOffset.x| = |sampleOffset.y|` is handled by the
else branch: the strict test `|sampleOffset.x| > |sampleOffset.y|` is false, and
the locals are `r = sampleOffset.y` and
`theta = π/2 - (π/4) * (sampleOffset.x / sampleOffset.y)`. -/
theorem tie_handled_by_else_branch (sample : Point2f ℝ)
    (htie : |(sampleOffset sample).x| = |(sampleOffset sample).y|) :
    ¬ (|(sampleOffset sample).x| > |(sampleOffset sample).y|)
      ∧ sampling_SquareToDiskConcentric_r_theta (sampleOffset sample)
        = ((sampleOffset sample).y,
            Real.pi / 2 - (Real.pi / 4) * ((sampleOffset sample).x / (sampleOffset sample).y)) := by
  have hnot : ¬ (|(sampleOffset sample).x| > |(sampleOffset sample).y|) := by
    rw [htie]
    exact lt_irrefl _
  refine ⟨hnot, ?_⟩
  unfold sampling_SquareToDiskConcentric_r_theta
  rw [if_neg hnot]
  rfl

/-- C13, amended, at the sample `(1, 1)`. -/
theorem tie_handled_by_else_branch_witness :
    ¬ (|(sampleOffset (⟨1, 1⟩ : Point2f ℝ)).x| > |(sampleOffset (⟨1, 1⟩ : Point2f ℝ)).y|)
      ∧ sampling_SquareToDiskConcentric_r_theta (sampleOffset (⟨1, 1⟩ : Point2f ℝ))
        = ((sampleOffset (⟨1, 1⟩ : Point2f ℝ)).y,
            Real.pi / 2 - (Real.pi / 4) * ((sampleOffset (⟨1, 1⟩ : Point2f ℝ)).x
              / (sampleOffset (⟨1, 1⟩ : Point2f ℝ)).y)) :=
  tie_handled_by_else_branch ⟨1, 1⟩ (by rw [sampleOffset_one_one])

/-- In the first branch the quotient `y / x` lies strictly between `-1` and
`1`. -/
theorem first_branch_quotient (x y : ℝ) (h : |x| > |y|) : -1 < y / x ∧ y / x < 1 := by
  have hx : 0 < |x| := lt_of_le_of_lt (abs_nonneg y) h
  have hq : |y / x| < 1 := by
    rw [abs_div, div_lt_one hx]
    exact h
  exact abs_lt.mp hq

/-- In the else branch, past the early return, the quotient `x / y` lies between
`-1` and `1`. -/
theorem else_branch_quotient (x y : ℝ) (h0 : ¬ (x = 0 ∧ y = 0)) (h : ¬ (|x| > |y|)) :
    -1 ≤ x / y ∧ x / y ≤ 1 := by
  have hy : y ≠ 0 := else_branch_divisor_ne_zero x y h0 h
  have hpos : 0 < |y| := abs_pos.mpr hy
  have hq : |x / y| ≤ 1 := by
    rw [abs_div, div_le_one hpos]
    exact not_lt.mp h
  exact abs_le.mp hq

/-- C17. For every non-zero offset the angle `theta` stays in a range fixed by
the branch: `-π/4 < theta < π/4` in the first branch
(`|offset.x| > |offset.y|`) and `π/4 ≤ theta ≤ 3π/4` in the else
branch. -/
theorem sampling_SquareToDiskConcentric_theta_range (offset : Vec2 ℝ)
    (h0 : ¬ (offset.x = 0 ∧ offset.y = 0)) :
    (|offset.x| > |offset.y| →
        -(Real.pi / 4) < (sampling_SquareToDiskConcentric_r_theta offset).2
          ∧ (sampling_SquareToDiskConcentric_r_theta offset).2 < Real.pi / 4)
      ∧ (¬ (|offset.x| > |offset.y|) →
        Real.pi / 4 ≤ (sampling_SquareToDiskConcentric_r_theta offset).2
          ∧ (sampling_SquareToDiskConcentric_r_theta offset).2 ≤ 3 * Real.pi / 4) := by
  have hpi := Real.pi_pos
  constructor
  · intro hb
    obtain ⟨h1, h2⟩ := first_branch_quotient _ _ hb
    unfold sampling_SquareToDiskConcentric_r_theta
    rw [if_pos hb]
    simp only [cmath_PI]
    constructor
    · nlinarith
    · nlinarith
  · intro hb
    obtain ⟨h1, h2⟩ := else_branch_quotient _ _ h0 hb
    unfold sampling_SquareToDiskConcentric_r_theta
    rw [if_neg hb]
    simp only [cmath_PI]
    constructor
    · nlinarith
    · nlinarith

/-- C17 at the offsets `(1, 1/2)`, of the first branch, and `(1/2, 1)`, of the
else branch. -/
theorem sampling_SquareToDiskConcentric_theta_range_witness :
    (-(Real.pi / 4) < (sampling_SquareToDiskConcentric_r_theta (⟨1, 1 / 2⟩ : Vec2 ℝ)).2
        ∧ (sampling_SquareToDiskConcentric_r_theta (⟨1, 1 / 2⟩ : Vec2 ℝ)).2 < Real.pi / 4)
      ∧ (Real.pi / 4 ≤ (sampling_SquareToDiskConcentric_r_theta (⟨1 / 2, 1⟩ : Vec2 ℝ)).2
        ∧ (sampling_SquareToDiskConcentric_r_theta (⟨1 / 2, 1⟩ : Vec2 ℝ)).2
          ≤ 3 * Real.pi / 4) :=
  ⟨(sampling_SquareToDiskConcentric_theta_range ⟨1, 1 / 2⟩ (by norm_num)).1
      (by norm_num [abs_of_pos]),
    (sampling_SquareToDiskConcentric_theta_range ⟨1 / 2, 1⟩ (by norm_num)).2
      (by norm_num [abs_of_pos])⟩

/-- The squared distance from the origin of the returned point is the square of
the larger of `|sampleOffset.x|` and `|sampleOffset.y|`. -/
theorem sampling_SquareToDiskConcentric_radius_sq (sample : Point2f ℝ) :
    (sampling_SquareToDiskConcentric sample).x ^ 2
        + (sampling_SquareToDiskConcentric sample).y ^ 2
      = max |(sampleOffset sample).x| |(sampleOffset sample).y| ^ 2 := by
  unfold sampling_SquareToDiskConcentric
  simp only [cmath_cos, cmath_sin, cmath_PI]
  split_ifs with h0 hb
  · rw [h0.1, h0.2]
    simp
  · simp only [smul_x, smul_y]
    rw [polar_sq, max_eq_left hb.le, sq_abs]
  · simp only [smul_x, smul_y]
    rw [polar_sq, max_eq_right (not_lt.mp hb), sq_abs]

/-- C18. For every real sample, the returned point is at distance
`max(|sampleOffset.x|, |sampleOffset.y|)` from the origin, in squares
`x² + y² = max(|sampleOffset.x|, |sampleOffset.y|)²`, with
`sampleOffset = 2 * sample - (1, 1)`; and the returned point is the origin
exactly for the sample `(0.5, 0.5)`. -/
theorem sampling_SquareToDiskConcentric_max_norm (sample : Point2f ℝ) :
    (sampleOffset sample).x = 2 * sample.x - 1
      ∧ (sampleOffset sample).y = 2 * sample.y - 1
      ∧ (sampling_SquareToDiskConcentric sample).x ^ 2
          + (sampling_SquareToDiskConcentric sample).y ^ 2
        = max |(sampleOffset sample).x| |(sampleOffset sample).y| ^ 2
      ∧ (sampling_SquareToDiskConcentric sample = ⟨0, 0, 0⟩
        ↔ sample.x = 1 / 2 ∧ sample.y = 1 / 2) := by
  refine ⟨rfl, rfl, sampling_SquareToDiskConcentric_radius_sq sample, ?_⟩
  constructor
  · intro h
    have hr := sampling_SquareToDiskConcentric_radius_sq sample
    rw [h] at hr
    have hmax : max |(sampleOffset sample).x| |(sampleOffset sample).y| = 0 := by
      have h2 : max |(sampleOffset sample).x| |(sampleOffset sample).y| ^ 2 = 0 := by
        rw [← hr]
        norm_num
      exact pow_eq_zero_iff (two_ne_zero) |>.mp h2
    have hx : |(sampleOffset sample).x| ≤ 0 := hmax ▸ le_max_left _ _
    have hy : |(sampleOffset sample).y| ≤ 0 := hmax ▸ le_max_right _ _
    have hx0 : (sampleOffset sample).x = 0 := abs_eq_zero.mp (le_antisymm hx (abs_nonneg _))
    have hy0 : (sampleOffset sample).y = 0 := abs_eq_zero.mp (le_antisymm hy (abs_nonneg _))
    unfold sampleOffset at hx0 hy0
    simp only at hx0 hy0
    constructor
    · linarith
    · linarith
  · rintro ⟨hx, hy⟩
    have h0 : (sampleOffset sample).x = 0 ∧ (sampleOffset sample).y = 0 := by
      unfold sampleOffset
      simp only [hx, hy]
      norm_num
    unfold sampling_SquareToDiskConcentric
    simp only [h0, and_self, if_true]

/-- On a diagonal `|x| = |y|` with `x ≠ 0`, the formulas of the two branches
give the same coordinates. -/
theorem tie_formulas_agree (x y : ℝ) (h : |x| = |y|) (hx : x ≠ 0) :
    x * Real.cos ((Real.pi / 4) * (y / x))
        = y * Real.cos (Real.pi / 2 - (Real.pi / 4) * (x / y))
      ∧ x * Real.sin ((Real.pi / 4) * (y / x))
        = y * Real.sin (Real.pi / 2 - (Real.pi / 4) * (x / y)) := by
  rcases abs_eq_abs.mp h with hxy | hxy
  · subst hxy
    have hq : x / x = 1 := div_self hx
    have ht : Real.pi / 2 - Real.pi / 4 * 1 = Real.pi / 4 * 1 := by ring
    rw [hq, ht]
    exact ⟨rfl, rfl⟩
  · have hy : y ≠ 0 := by
      intro hy0
      rw [hy0, neg_zero] at hxy
      exact hx hxy
    have hq1 : y / x = -1 := by
      rw [hxy]
      field_simp
    have hq2 : x / y = -1 := by
      rw [hxy]
      field_simp
    have ht1 : Real.pi / 4 * (-1) = -(Real.pi / 4) := by ring
    have ht2 : Real.pi / 2 - -(Real.pi / 4) = Real.pi - Real.pi / 4 := by ring
    rw [hq1, hq2, ht1, ht2, Real.cos_neg, Real.sin_neg, Real.cos_pi_sub, Real.sin_pi_sub, hxy]
    constructor
    · ring
    · ring

/-- C19. On the diagonals the formulas of the two branches agree: for every
offset with `|sampleOffset.x| = |sampleOffset.y| ≠ 0`,
`sampleOffset.x * (cos t1, sin t1)` with `t1 = (π/4) * (y / x)` equals
`sampleOffset.y * (cos t2, sin t2)` with `t2 = π/2 - (π/4) * (x / y)`, and the
point returned by `sampling_SquareToDiskConcentric` is the one either branch
computes. -/
theorem sampling_SquareToDiskConcentric_tie_agree (sample : Point2f ℝ)
    (htie : |(sampleOffset sample).x| = |(sampleOffset sample).y|)
    (hx : (sampleOffset sample).x ≠ 0) :
    ((sampleOffset sample).x
          * Real.cos ((Real.pi / 4) * ((sampleOffset sample).y / (sampleOffset sample).x))
        = (sampleOffset sample).y
          * Real.cos (Real.pi / 2
              - (Real.pi / 4) * ((sampleOffset sample).x / (sampleOffset sample).y))
      ∧ (sampleOffset sample).x
          * Real.sin ((Real.pi / 4) * ((sampleOffset sample).y / (sampleOffset sample).x))
        = (sampleOffset sample).y
          * Real.sin (Real.pi / 2
              - (Real.pi / 4) * ((sampleOffset sample).x / (sampleOffset sample).y)))
      ∧ sampling_SquareToDiskConcentric sample
        = (sampleOffset sample).x
          * (⟨Real.cos ((Real.pi / 4)
                * ((sampleOffset sample).y / (sampleOffset sample).x)),
              Real.sin ((Real.pi / 4)
                * ((sampleOffset sample).y / (sampleOffset sample).x)), 0⟩ : Vec3 ℝ)
      ∧ sampling_SquareToDiskConcentric sample
        = (sampleOffset sample).y
          * (⟨Real.cos (Real.pi / 2
                - (Real.pi / 4) * ((sampleOffset sample).x / (sampleOffset sample).y)),
              Real.sin (Real.pi / 2
                - (Real.pi / 4) * ((sampleOffset sample).x / (sampleOffset sample).y)),
              0⟩ : Vec3 ℝ) := by
  obtain ⟨hc, hs⟩ := tie_formulas_agree _ _ htie hx
  have hne : ¬ ((sampleOffset sample).x = 0 ∧ (sampleOffset sample).y = 0) :=
    fun h => hx h.1
  have hnot : ¬ (|(sampleOffset sample).x| > |(sampleOffset sample).y|) := by
    rw [htie]
    exact lt_irrefl _
  have helse : sampling_SquareToDiskConcentric sample
      = (sampleOffset sample).y
        * (⟨Real.cos (Real.pi / 2
              - (Real.pi / 4) * ((sampleOffset sample).x / (sampleOffset sample).y)),
            Real.sin (Real.pi / 2
              - (Real.pi / 4) * ((sampleOffset sample).x / (sampleOffset sample).y)),
            0⟩ : Vec3 ℝ) := by
    unfold sampling_SquareToDiskConcentric
    simp only [if_neg hne, if_neg hnot]
    rfl
  refine ⟨⟨hc, hs⟩, ?_, helse⟩
  rw [helse]
  show (⟨_, _, _⟩ : Vec3 ℝ) = ⟨_, _, _⟩
  rw [← hc, ← hs, mul_zero, mul_zero]

/-- C19 at the sample `(1, 0)`, of offset `(1, -1)`. -/
theorem sampling_SquareToDiskConcentric_tie_agree_witness :
    sampling_SquareToDiskConcentric (⟨1, 0⟩ : Point2f ℝ)
      = (sampleOffset (⟨1, 0⟩ : Point2f ℝ)).x
        * (⟨Real.cos ((Real.pi / 4) * ((sampleOffset (⟨1, 0⟩ : Point2f ℝ)).y
              / (sampleOffset (⟨1, 0⟩ : Point2f ℝ)).x)),
            Real.sin ((Real.pi / 4) * ((sampleOffset (⟨1, 0⟩ : Point2f ℝ)).y
              / (sampleOffset (⟨1, 0⟩ : Point2f ℝ)).x)), 0⟩ : Vec3 ℝ) :=
  (sampling_SquareToDiskConcentric_tie_agree ⟨1, 0⟩
    (by rw [sampleOffset_one_zero]; simp only [abs_neg])
    (by rw [sampleOffset_one_zero]; exact one_ne_zero)).2.1

end Scenarios

/-! ## The hemisphere sampler: draws, basis and the unit-normal precondition -/

section HemisphereFrame

/-- C15. With the random source as explicit state, for every normal
`calculateRandomDirectionInHemisphere` takes exactly two consecutive draws: the
returned engine has the same sequence of draws and its cursor advanced by two;
the first draw `u1` fixes `cos(theta) = sqrt(u1)` and the second draw `u2` the
azimuth `u2 * TWO_PI`; and the direction is the same for any two engines that
agree on these two draws. -/
theorem calculateRandomDirectionInHemisphere_two_draws {α : Type} [LinearOrderedField α]
    [CMath α] (normal : Vec3 α) (rng : RandomEngine α) :
    (calculateRandomDirectionInHemisphere normal rng).2.cursor = rng.cursor + 2
      ∧ (calculateRandomDirectionInHemisphere normal rng).2.draws = rng.draws
      ∧ (calculateRandomDirectionInHemisphere normal rng).1
        = CMath.sqrt (rng.draws rng.cursor) * normal
          + (CMath.cos (rng.draws (rng.cursor + 1) * TWO_PI)
              * CMath.sqrt (1 - CMath.sqrt (rng.draws rng.cursor)
                  * CMath.sqrt (rng.draws rng.cursor)))
            * perpendicularDirection1 normal
          + (CMath.sin (rng.draws (rng.cursor + 1) * TWO_PI)
              * CMath.sqrt (1 - CMath.sqrt (rng.draws rng.cursor)
                  * CMath.sqrt (rng.draws rng.cursor)))
            * perpendicularDirection2 normal
      ∧ (∀ other : RandomEngine α,
          other.draws other.cursor = rng.draws rng.cursor →
          other.draws (other.cursor + 1) = rng.draws (rng.cursor + 1) →
          (calculateRandomDirectionInHemisphere normal other).1
            = (calculateRandomDirectionInHemisphere normal rng).1) := by
  refine ⟨rfl, rfl, rfl, ?_⟩
  intro other h1 h2
  unfold calculateRandomDirectionInHemisphere u01
  simp only [h1, h2]

/-- C16. For every unit normal `n`, the vectors `n`,
`t1 = normalize(cross(n, directionNotNormal))` and
`t2 = normalize(cross(n, t1))` form an orthonormal basis: each has length one
and `dot(n, t1) = dot(n, t2) = dot(t1, t2) = 0`. -/
theorem perpendicularDirections_orthonormal (n : Vec3 ℝ)
    (hn : n.x ^ 2 + n.y ^ 2 + n.z ^ 2 = 1) :
    (perpendicularDirection1 n = normalize (cross n (directionNotNormal n))
        ∧ perpendicularDirection2 n = normalize (cross n (perpendicularDirection1 n)))
      ∧ (length n = 1 ∧ length (perpendicularDirection1 n) = 1
        ∧ length (perpendicularDirection2 n) = 1)
      ∧ dot n (perpendicularDirection1 n) = 0
      ∧ dot n (perpendicularDirection2 n) = 0
      ∧ dot (perpendicularDirection1 n) (perpendicularDirection2 n) = 0 := by
  obtain ⟨hnn, h11, h22, hn1, hn2, h12⟩ := basis_orthonormal n hn
  refine ⟨⟨rfl, rfl⟩, ⟨?_, ?_, ?_⟩, hn1, hn2, h12⟩
  · unfold length
    rw [cmath_sqrt, hnn, Real.sqrt_one]
  · unfold length
    rw [cmath_sqrt, h11, Real.sqrt_one]
  · unfold length
    rw [cmath_sqrt, h22, Real.sqrt_one]

/-- C16 at the normal `(0, 0, 1)`. -/
theorem perpendicularDirections_orthonormal_witness :
    (length (⟨0, 0, 1⟩ : Vec3 ℝ) = 1
        ∧ length (perpendicularDirection1 (⟨0, 0, 1⟩ : Vec3 ℝ)) = 1
        ∧ length (perpendicularDirection2 (⟨0, 0, 1⟩ : Vec3 ℝ)) = 1)
      ∧ dot (⟨0, 0, 1⟩ : Vec3 ℝ) (perpendicularDirection1 ⟨0, 0, 1⟩) = 0
      ∧ dot (⟨0, 0, 1⟩ : Vec3 ℝ) (perpendicularDirection2 ⟨0, 0, 1⟩) = 0
      ∧ dot (perpendicularDirection1 (⟨0, 0, 1⟩ : Vec3 ℝ))
          (perpendicularDirection2 ⟨0, 0, 1⟩) = 0 :=
  (perpendicularDirections_orthonormal ⟨0, 0, 1⟩ (by norm_num)).2

/-- The constant `SQRT_OF_ONE_THIRD` is below one. -/
theorem SQRT_OF_ONE_THIRD_lt_one : (SQRT_OF_ONE_THIRD : ℝ) < 1 := by
  have h1 := SQRT_OF_ONE_THIRD_sq
  have h2 := SQRT_OF_ONE_THIRD_pos
  nlinarith

/-- For the normal `(2, 0, 0)` the tests choose the y-axis. -/
theorem directionNotNormal_two : directionNotNormal (⟨2, 0, 0⟩ : Vec3 ℝ) = ⟨0, 1, 0⟩ := by
  have h1 := SQRT_OF_ONE_THIRD_lt_one
  have h2 := SQRT_OF_ONE_THIRD_pos
  have hx : ¬ (|(2 : ℝ)| < SQRT_OF_ONE_THIRD) := by
    rw [abs_of_pos (by norm_num : (0 : ℝ) < 2)]
    linarith
  have hy : |(0 : ℝ)| < SQRT_OF_ONE_THIRD := by
    rw [abs_zero]
    exact h2
  unfold directionNotNormal
  simp only [if_neg hx, if_pos hy]

/-- The dot products of the frame built for the normal `(2, 0, 0)`. -/
theorem basis_two : dot (⟨2, 0, 0⟩ : Vec3 ℝ) ⟨2, 0, 0⟩ = 4
      ∧ dot (perpendicularDirection1 (⟨2, 0, 0⟩ : Vec3 ℝ)) (perpendicularDirection1 ⟨2, 0, 0⟩) = 1
      ∧ dot (perpendicularDirection2 (⟨2, 0, 0⟩ : Vec3 ℝ)) (perpendicularDirection2 ⟨2, 0, 0⟩) = 1
      ∧ dot (⟨2, 0, 0⟩ : Vec3 ℝ) (perpendicularDirection1 ⟨2, 0, 0⟩) = 0
      ∧ dot (⟨2, 0, 0⟩ : Vec3 ℝ) (perpendicularDirection2 ⟨2, 0, 0⟩) = 0
      ∧ dot (perpendicularDirection1 (⟨2, 0, 0⟩ : Vec3 ℝ)) (perpendicularDirection2 ⟨2, 0, 0⟩)
        = 0 := by
  have hnn : dot (⟨2, 0, 0⟩ : Vec3 ℝ) ⟨2, 0, 0⟩ = 4 := by
    simp only [dot]
    norm_num
  have hw : dot (cross (⟨2, 0, 0⟩ : Vec3 ℝ) (directionNotNormal ⟨2, 0, 0⟩))
      (cross (⟨2, 0, 0⟩ : Vec3 ℝ) (directionNotNormal ⟨2, 0, 0⟩)) = 4 := by
    rw [directionNotNormal_two]
    simp only [dot, cross]
    norm_num
  have h11 : dot (perpendicularDirection1 (⟨2, 0, 0⟩ : Vec3 ℝ))
      (perpendicularDirection1 ⟨2, 0, 0⟩) = 1 :=
    dot_normalize_self _ (by rw [hw]; norm_num)
  have hn1 : dot (⟨2, 0, 0⟩ : Vec3 ℝ) (perpendicularDirection1 ⟨2, 0, 0⟩) = 0 := by
    unfold perpendicularDirection1
    rw [dot_normalize, dot_left_cross, zero_mul]
  have hw2 : dot (cross (⟨2, 0, 0⟩ : Vec3 ℝ) (perpendicularDirection1 ⟨2, 0, 0⟩))
      (cross (⟨2, 0, 0⟩ : Vec3 ℝ) (perpendicularDirection1 ⟨2, 0, 0⟩)) = 4 := by
    rw [dot_cross_self, hnn, h11, hn1]
    norm_num
  have h22 : dot (perpendicularDirection2 (⟨2, 0, 0⟩ : Vec3 ℝ))
      (perpendicularDirection2 ⟨2, 0, 0⟩) = 1 :=
    dot_normalize_self _ (by rw [hw2]; norm_num)
  have hn2 : dot (⟨2, 0, 0⟩ : Vec3 ℝ) (perpendicularDirection2 ⟨2, 0, 0⟩) = 0 := by
    unfold perpendicularDirection2
    rw [dot_normalize, dot_left_cross, zero_mul]
  have h12 : dot (perpendicularDirection1 (⟨2, 0, 0⟩ : Vec3 ℝ))
      (perpendicularDirection2 ⟨2, 0, 0⟩) = 0 := by
    unfold perpendicularDirection2
    rw [dot_normalize, dot_right_cross, zero_mul]
  exact ⟨hnn, h11, h22, hn1, hn2, h12⟩

/-- C20. The unit-normal precondition is necessary: for the normal `(2, 0, 0)`,
which is not of unit length, the first draw `u1 = 1/2` and any second draw
`u2`, the returned direction `d` has `|d|² = 5/2`, so its length is not one. -/
theorem calculateRandomDirectionInHemisphere_non_unit_normal (u2 : ℝ) :
    (2 : ℝ) ^ 2 + 0 ^ 2 + 0 ^ 2 ≠ 1
      ∧ dot (calculateRandomDirectionInHemisphere (⟨2, 0, 0⟩ : Vec3 ℝ) (twoDraws (1 / 2) u2)).1
          (calculateRandomDirectionInHemisphere (⟨2, 0, 0⟩ : Vec3 ℝ) (twoDraws (1 / 2) u2)).1
        = 5 / 2
      ∧ length (calculateRandomDirectionInHemisphere (⟨2, 0, 0⟩ : Vec3 ℝ)
          (twoDraws (1 / 2) u2)).1 ≠ 1 := by
  obtain ⟨hnn, h11, h22, hn1, hn2, h12⟩ := basis_two
  have hup : Real.sqrt (1 / 2) * Real.sqrt (1 / 2) = 1 / 2 :=
    Real.mul_self_sqrt (by norm_num)
  have hover : Real.sqrt (1 - 1 / 2) ^ 2 = 1 - 1 / 2 := Real.sq_sqrt (by norm_num)
  have hcs := Real.cos_sq_add_sin_sq (u2 * (2 * Real.pi))
  have hd : dot (calculateRandomDirectionInHemisphere (⟨2, 0, 0⟩ : Vec3 ℝ)
        (twoDraws (1 / 2) u2)).1
      (calculateRandomDirectionInHemisphere (⟨2, 0, 0⟩ : Vec3 ℝ) (twoDraws (1 / 2) u2)).1
      = 5 / 2 := by
    rw [calculateRandomDirectionInHemisphere_fst, dot_combination_self, hnn, h11, h22,
      hn1, hn2, h12]
    simp only [twoDraws, if_true, hup, mul_zero, add_zero, mul_one, mul_pow, hover,
      sq (Real.sqrt (1 / 2))]
    simp only [zero_add, one_ne_zero, if_false]
    nlinarith
  refine ⟨by norm_num, hd, ?_⟩
  unfold length
  rw [cmath_sqrt, hd, Ne, Real.sqrt_eq_one]
  norm_num

end HemisphereFrame

/-! ## The concentric map is a bijection of the square onto the disk -/

section Bijection

/-- For an angle of `[-π/4, π/4]` the sine is at most the cosine in absolute
value. -/
theorem abs_sin_le_cos (t : ℝ) (h1 : -(Real.pi / 4) ≤ t) (h2 : t ≤ Real.pi / 4) :
    |Real.sin t| ≤ Real.cos t := by
  have hpi := Real.pi_pos
  have hc : 0 ≤ Real.cos t := Real.cos_nonneg_of_mem_Icc ⟨by linarith, by linarith⟩
  have h2c : 0 ≤ Real.cos (2 * t) := Real.cos_nonneg_of_mem_Icc ⟨by linarith, by linarith⟩
  rw [Real.cos_two_mul'] at h2c
  exact abs_le_of_sq_le_sq (by linarith) hc

/-- For an angle of `(-π/4, π/4)` the sine is below the cosine in absolute
value. -/
theorem abs_sin_lt_cos (t : ℝ) (h1 : -(Real.pi / 4) < t) (h2 : t < Real.pi / 4) :
    |Real.sin t| < Real.cos t := by
  have hpi := Real.pi_pos
  have hc : 0 < Real.cos t := Real.cos_pos_of_mem_Ioo ⟨by linarith, by linarith⟩
  have h2c : 0 < Real.cos (2 * t) := Real.cos_pos_of_mem_Ioo ⟨by linarith, by linarith⟩
  rw [Real.cos_two_mul'] at h2c
  exact abs_lt_of_sq_lt_sq (by linarith) hc.le

/-- An angle of `[-π/2, π/2]` whose sine has square at most one half lies in
`[-π/4, π/4]`. -/
theorem angle_le_of_sin_sq_le (t : ℝ) (h1 : -(Real.pi / 2) ≤ t) (h2 : t ≤ Real.pi / 2)
    (hs : Real.sin t ^ 2 ≤ 1 / 2) : -(Real.pi / 4) ≤ t ∧ t ≤ Real.pi / 4 := by
  have hpi := Real.pi_pos
  have hcs := Real.sin_sq_add_cos_sq t
  have h2c : 0 ≤ Real.cos (2 * t) := by
    rw [Real.cos_two_mul']
    linarith
  constructor
  · by_contra hlt
    have hlt' : t < -(Real.pi / 4) := not_le.mp hlt
    have hneg : Real.cos (-(2 * t)) < 0 :=
      Real.cos_neg_of_pi_div_two_lt_of_lt (by linarith) (by linarith)
    rw [Real.cos_neg] at hneg
    linarith
  · by_contra hlt
    have hlt' : Real.pi / 4 < t := not_le.mp hlt
    have hneg : Real.cos (2 * t) < 0 :=
      Real.cos_neg_of_pi_div_two_lt_of_lt (by linarith) (by linarith)
    linarith

/-- An angle of `[-π/2, π/2]` whose sine has square below one half lies in
`(-π/4, π/4)`. -/
theorem angle_lt_of_sin_sq_lt (t : ℝ) (h1 : -(Real.pi / 2) ≤ t) (h2 : t ≤ Real.pi / 2)
    (hs : Real.sin t ^ 2 < 1 / 2) : -(Real.pi / 4) < t ∧ t < Real.pi / 4 := by
  have hpi := Real.pi_pos
  have hcs := Real.sin_sq_add_cos_sq t
  have h2c : 0 < Real.cos (2 * t) := by
    rw [Real.cos_two_mul']
    linarith
  constructor
  · by_contra hlt
    have hlt' : t ≤ -(Real.pi / 4) := not_lt.mp hlt
    have hneg : Real.cos (-(2 * t)) ≤ 0 :=
      Real.cos_nonpos_of_pi_div_two_le_of_le (by linarith) (by linarith)
    rw [Real.cos_neg] at hneg
    linarith
  · by_contra hlt
    have hlt' : Real.pi / 4 ≤ t := not_lt.mp hlt
    have hneg : Real.cos (2 * t) ≤ 0 :=
      Real.cos_nonpos_of_pi_div_two_le_of_le (by linarith) (by linarith)
    linarith

/-- Polar coordinates with the angle in `[-π/4, π/4]` and a signed non-zero
radius determine the radius and the angle. -/
theorem polar_injective (r r' t t' : ℝ) (hr : r ≠ 0)
    (ht1 : -(Real.pi / 4) ≤ t) (ht2 : t ≤ Real.pi / 4)
    (ht1' : -(Real.pi / 4) ≤ t') (ht2' : t' ≤ Real.pi / 4)
    (hc : r * Real.cos t = r' * Real.cos t') (hs : r * Real.sin t = r' * Real.sin t') :
    r = r' ∧ t = t' := by
  have hpi := Real.pi_pos
  have hct : 0 < Real.cos t := Real.cos_pos_of_mem_Ioo ⟨by linarith, by linarith⟩
  have hct' : 0 < Real.cos t' := Real.cos_pos_of_mem_Ioo ⟨by linarith, by linarith⟩
  have hsq : r ^ 2 = r' ^ 2 := by
    have e1 := polar_sq r t
    have e2 := polar_sq r' t'
    rw [hc, hs] at e1
    rw [← e1, e2]
  have hrr : r = r' := by
    rcases sq_eq_sq_iff_eq_or_eq_neg.mp hsq with h | h
    · exact h
    · exfalso
      rw [h] at hc
      have h3 : r' * (Real.cos t + Real.cos t') = 0 := by linarith
      have h4 : r' ≠ 0 := by
        intro h0
        rw [h0, neg_zero] at h
        exact hr h
      rcases mul_eq_zero.mp h3 with h5 | h5
      · exact h4 h5
      · linarith
  refine ⟨hrr, ?_⟩
  rw [← hrr] at hs
  have hsin : Real.sin t = Real.sin t' := mul_left_cancel₀ hr hs
  exact Real.injOn_sin ⟨by linarith, by linarith⟩ ⟨by linarith, by linarith⟩ hsin

/-- Every point `(P, Q)` with `P ≠ 0` and `|Q| ≤ |P|` has polar coordinates with
a signed radius and an angle of `[-π/4, π/4]`; the angle is in the open
interval when `|Q| < |P|`. -/
theorem polar_inverse (P Q : ℝ) (hP : P ≠ 0) (h : |Q| ≤ |P|) :
    ∃ r t : ℝ, r ^ 2 = P ^ 2 + Q ^ 2 ∧ r ≠ 0
      ∧ -(Real.pi / 4) ≤ t ∧ t ≤ Real.pi / 4
      ∧ (|Q| < |P| → -(Real.pi / 4) < t ∧ t < Real.pi / 4)
      ∧ r * Real.cos t = P ∧ r * Real.sin t = Q := by
  have hpi := Real.pi_pos
  have hP2 : 0 < P ^ 2 := by positivity
  have hsum : 0 < P ^ 2 + Q ^ 2 := by positivity
  have hρ2 : Real.sqrt (P ^ 2 + Q ^ 2) ^ 2 = P ^ 2 + Q ^ 2 := Real.sq_sqrt hsum.le
  have hρpos : 0 < Real.sqrt (P ^ 2 + Q ^ 2) := Real.sqrt_pos.mpr hsum
  obtain ⟨r, hr2, hrP⟩ : ∃ r : ℝ, r ^ 2 = P ^ 2 + Q ^ 2 ∧ 0 < r * P := by
    rcases lt_or_gt_of_ne hP with hneg | hpos
    · refine ⟨-Real.sqrt (P ^ 2 + Q ^ 2), by rw [neg_sq]; exact hρ2, ?_⟩
      nlinarith
    · exact ⟨Real.sqrt (P ^ 2 + Q ^ 2), hρ2, mul_pos hρpos hpos⟩
  have hr0 : r ≠ 0 := by
    rintro rfl
    simp at hrP
  have hQ2 : Q ^ 2 ≤ P ^ 2 := sq_le_sq.mpr h
  have hr2pos : 0 < r ^ 2 := by positivity
  have hz2 : (Q / r) ^ 2 ≤ 1 / 2 := by
    rw [div_pow, div_le_iff₀ hr2pos]
    nlinarith
  have hz1 : -1 ≤ Q / r ∧ Q / r ≤ 1 :=
    abs_le.mp (abs_le_of_sq_le_sq (by nlinarith) zero_le_one)
  have hsin : Real.sin (Real.arcsin (Q / r)) = Q / r := Real.sin_arcsin hz1.1 hz1.2
  have ht := angle_le_of_sin_sq_le (Real.arcsin (Q / r)) (Real.neg_pi_div_two_le_arcsin _)
    (Real.arcsin_le_pi_div_two _) (by rw [hsin]; exact hz2)
  have hrs : r * Real.sin (Real.arcsin (Q / r)) = Q := by
    rw [hsin]
    field_simp
  have hcos : 0 < Real.cos (Real.arcsin (Q / r)) :=
    Real.cos_pos_of_mem_Ioo ⟨by linarith [ht.1], by linarith [ht.2]⟩
  have hrc : r * Real.cos (Real.arcsin (Q / r)) = P := by
    have e := polar_sq r (Real.arcsin (Q / r))
    rw [hrs] at e
    have e2 : (r * Real.cos (Real.arcsin (Q / r))) ^ 2 = P ^ 2 := by linarith
    rcases sq_eq_sq_iff_eq_or_eq_neg.mp e2 with h3 | h3
    · exact h3
    · exfalso
      have h4 : 0 < r * P * Real.cos (Real.arcsin (Q / r)) := mul_pos hrP hcos
      nlinarith
  refine ⟨r, Real.arcsin (Q / r), hr2, hr0, ht.1, ht.2, ?_, hrc, hrs⟩
  intro hlt
  have hQP : Q ^ 2 < P ^ 2 := sq_lt_sq.mpr hlt
  apply angle_lt_of_sin_sq_lt _ (Real.neg_pi_div_two_le_arcsin _) (Real.arcsin_le_pi_div_two _)
  rw [hsin, div_pow, div_lt_iff₀ hr2pos]
  nlinarith

/-- The value of `sampling_SquareToDiskConcentric` in the first branch. -/
theorem disk_first_branch (s : Point2f ℝ)
    (hb : |(sampleOffset s).x| > |(sampleOffset s).y|) :
    sampling_SquareToDiskConcentric s
      = ⟨(sampleOffset s).x * Real.cos (Real.pi / 4 * ((sampleOffset s).y / (sampleOffset s).x)),
          (sampleOffset s).x * Real.sin (Real.pi / 4 * ((sampleOffset s).y / (sampleOffset s).x)),
          0⟩ := by
  have h0 : ¬ ((sampleOffset s).x = 0 ∧ (sampleOffset s).y = 0) :=
    fun h => first_branch_divisor_ne_zero _ _ hb h.1
  unfold sampling_SquareToDiskConcentric
  simp only [if_neg h0, if_pos hb]
  show (⟨_, _, _⟩ : Vec3 ℝ) = ⟨_, _, _⟩
  rw [mul_zero]
  rfl

/-- The value of `sampling_SquareToDiskConcentric` in the else branch, with
`cos(π/2 - t) = sin t` and `sin(π/2 - t) = cos t`. -/
theorem disk_else_branch (s : Point2f ℝ)
    (h0 : ¬ ((sampleOffset s).x = 0 ∧ (sampleOffset s).y = 0))
    (hb : ¬ (|(sampleOffset s).x| > |(sampleOffset s).y|)) :
    sampling_SquareToDiskConcentric s
      = ⟨(sampleOffset s).y * Real.sin (Real.pi / 4 * ((sampleOffset s).x / (sampleOffset s).y)),
          (sampleOffset s).y * Real.cos (Real.pi / 4 * ((sampleOffset s).x / (sampleOffset s).y)),
          0⟩ := by
  unfold sampling_SquareToDiskConcentric
  simp only [if_neg h0, if_neg hb]
  show (⟨_, _, _⟩ : Vec3 ℝ) = ⟨_, _, _⟩
  rw [mul_zero, cmath_cos, cmath_sin, cmath_PI, Real.cos_pi_div_two_sub,
    Real.sin_pi_div_two_sub]

/-- The value of `sampling_SquareToDiskConcentric` at a zero offset. -/
theorem disk_origin (s : Point2f ℝ)
    (h0 : (sampleOffset s).x = 0 ∧ (sampleOffset s).y = 0) :
    sampling_SquareToDiskConcentric s = ⟨0, 0, 0⟩ := by
  unfold sampling_SquareToDiskConcentric
  simp only [if_pos h0]

/-- The returned point lies in the plane `z = 0`, for every sample. -/
theorem disk_z_zero (s : Point2f ℝ) : (sampling_SquareToDiskConcentric s).z = 0 := by
  by_cases h0 : (sampleOffset s).x = 0 ∧ (sampleOffset s).y = 0
  · rw [disk_origin s h0]
  · by_cases hb : |(sampleOffset s).x| > |(sampleOffset s).y|
    · rw [disk_first_branch s hb]
    · rw [disk_else_branch s h0 hb]

/-- Only a zero offset is sent to the origin. -/
theorem offset_zero_of_origin (s : Point2f ℝ)
    (h : sampling_SquareToDiskConcentric s = ⟨0, 0, 0⟩) :
    (sampleOffset s).x = 0 ∧ (sampleOffset s).y = 0 := by
  have hr := sampling_SquareToDiskConcentric_radius_sq s
  rw [h] at hr
  have h2 : max |(sampleOffset s).x| |(sampleOffset s).y| ^ 2 = 0 := by
    rw [← hr]
    norm_num
  have hmax : max |(sampleOffset s).x| |(sampleOffset s).y| = 0 :=
    (pow_eq_zero_iff two_ne_zero).mp h2
  have hx : |(sampleOffset s).x| ≤ 0 := hmax ▸ le_max_left _ _
  have hy : |(sampleOffset s).y| ≤ 0 := hmax ▸ le_max_right _ _
  exact ⟨abs_eq_zero.mp (le_antisymm hx (abs_nonneg _)),
    abs_eq_zero.mp (le_antisymm hy (abs_nonneg _))⟩

/-- Two samples with the same offset are equal. -/
theorem sample_eq_of_offset_eq (s s' : Point2f ℝ)
    (hx : (sampleOffset s).x = (sampleOffset s').x)
    (hy : (sampleOffset s).y = (sampleOffset s').y) : s = s' := by
  obtain ⟨sx, sy⟩ := s
  obtain ⟨sx', sy'⟩ := s'
  unfold sampleOffset at hx hy
  simp only at hx hy
  have h1 : sx = sx' := by linarith
  have h2 : sy = sy' := by linarith
  rw [h1, h2]

/-- With a non-zero signed radius and an angle of `(-π/4, π/4)`, the sine
coordinate is the smaller one in absolute value. -/
theorem abs_coords_lt (r t : ℝ) (hr : r ≠ 0) (h1 : -(Real.pi / 4) < t)
    (h2 : t < Real.pi / 4) : |r * Real.sin t| < |r * Real.cos t| := by
  have h := abs_sin_lt_cos t h1 h2
  have hc : 0 ≤ Real.cos t := le_trans (abs_nonneg _) h.le
  rw [abs_mul, abs_mul, abs_of_nonneg hc]
  exact mul_lt_mul_of_pos_left h (abs_pos.mpr hr)

/-- With an angle of `[-π/4, π/4]`, the sine coordinate is at most the cosine
coordinate in absolute value. -/
theorem abs_coords_le (r t : ℝ) (h1 : -(Real.pi / 4) ≤ t)
    (h2 : t ≤ Real.pi / 4) : |r * Real.sin t| ≤ |r * Real.cos t| := by
  have h := abs_sin_le_cos t h1 h2
  have hc : 0 ≤ Real.cos t := le_trans (abs_nonneg _) h
  rw [abs_mul, abs_mul, abs_of_nonneg hc]
  exact mul_le_mul_of_nonneg_left h (abs_nonneg r)

/-- The angle `(π/4) * (y / x)` of the first branch lies in `(-π/4, π/4)`. -/
theorem first_branch_angle (x y : ℝ) (h : |x| > |y|) :
    -(Real.pi / 4) < Real.pi / 4 * (y / x) ∧ Real.pi / 4 * (y / x) < Real.pi / 4 := by
  have hpi := Real.pi_pos
  obtain ⟨h1, h2⟩ := first_branch_quotient x y h
  constructor
  · nlinarith
  · nlinarith

/-- The angle `(π/4) * (x / y)` of the else branch lies in `[-π/4, π/4]`. -/
theorem else_branch_angle (x y : ℝ) (h0 : ¬ (x = 0 ∧ y = 0)) (h : ¬ (|x| > |y|)) :
    -(Real.pi / 4) ≤ Real.pi / 4 * (x / y) ∧ Real.pi / 4 * (x / y) ≤ Real.pi / 4 := by
  have hpi := Real.pi_pos
  obtain ⟨h1, h2⟩ := else_branch_quotient x y h0 h
  constructor
  · nlinarith
  · nlinarith

/-- Equal quotients by the same non-zero divisor, scaled by `π/4`, have equal
numerators. -/
theorem numerator_eq_of_angle_eq (x y y' : ℝ) (hx : x ≠ 0)
    (h : Real.pi / 4 * (y / x) = Real.pi / 4 * (y' / x)) : y = y' := by
  have hpi : Real.pi / 4 ≠ 0 := by positivity
  have hq : y / x = y' / x := mul_left_cancel₀ hpi h
  field_simp at hq
  exact hq

/-- Distinct samples are sent to distinct points. -/
theorem disk_injective (s s' : Point2f ℝ)
    (h : sampling_SquareToDiskConcentric s = sampling_SquareToDiskConcentric s') :
    s = s' := by
  by_cases h0 : (sampleOffset s).x = 0 ∧ (sampleOffset s).y = 0
  · rw [disk_origin s h0] at h
    have h0' := offset_zero_of_origin s' h.symm
    exact sample_eq_of_offset_eq s s' (by rw [h0.1, h0'.1]) (by rw [h0.2, h0'.2])
  by_cases h0' : (sampleOffset s').x = 0 ∧ (sampleOffset s').y = 0
  · rw [disk_origin s' h0'] at h
    exact absurd (offset_zero_of_origin s h) h0
  by_cases hb : |(sampleOffset s).x| > |(sampleOffset s).y|
  · have hx := first_branch_divisor_ne_zero _ _ hb
    obtain ⟨ha1, ha2⟩ := first_branch_angle _ _ hb
    by_cases hb' : |(sampleOffset s').x| > |(sampleOffset s').y|
    · obtain ⟨ha1', ha2'⟩ := first_branch_angle _ _ hb'
      rw [disk_first_branch s hb, disk_first_branch s' hb'] at h
      obtain ⟨hr, ht⟩ := polar_injective _ _ _ _ hx ha1.le ha2.le ha1'.le ha2'.le
        (congrArg Vec3.x h) (congrArg Vec3.y h)
      rw [← hr] at ht
      exact sample_eq_of_offset_eq s s' hr (numerator_eq_of_angle_eq _ _ _ hx ht)
    · exfalso
      obtain ⟨ha1', ha2'⟩ := else_branch_angle _ _ h0' hb'
      rw [disk_first_branch s hb, disk_else_branch s' h0' hb'] at h
      have hX := congrArg Vec3.x h
      have hY := congrArg Vec3.y h
      simp only at hX hY
      have hlt := abs_coords_lt _ _ hx ha1 ha2
      have hle := abs_coords_le (sampleOffset s').y _ ha1' ha2'
      rw [hX, hY] at hlt
      exact absurd hle (not_le.mpr hlt)
  · have hy := else_branch_divisor_ne_zero _ _ h0 hb
    obtain ⟨ha1, ha2⟩ := else_branch_angle _ _ h0 hb
    by_cases hb' : |(sampleOffset s').x| > |(sampleOffset s').y|
    · exfalso
      have hx' := first_branch_divisor_ne_zero _ _ hb'
      obtain ⟨ha1', ha2'⟩ := first_branch_angle _ _ hb'
      rw [disk_else_branch s h0 hb, disk_first_branch s' hb'] at h
      have hX := congrArg Vec3.x h
      have hY := congrArg Vec3.y h
      simp only at hX hY
      have hlt := abs_coords_lt _ _ hx' ha1' ha2'
      have hle := abs_coords_le (sampleOffset s).y _ ha1 ha2
      rw [← hX, ← hY] at hlt
      exact absurd hle (not_le.mpr hlt)
    · obtain ⟨ha1', ha2'⟩ := else_branch_angle _ _ h0' hb'
      rw [disk_else_branch s h0 hb, disk_else_branch s' h0' hb'] at h
      obtain ⟨hr, ht⟩ := polar_injective _ _ _ _ hy ha1 ha2 ha1' ha2'
        (congrArg Vec3.y h) (congrArg Vec3.x h)
      rw [← hr] at ht
      exact sample_eq_of_offset_eq s s' (numerator_eq_of_angle_eq _ _ _ hy ht) hr

/-- The offset of the sample `((a + 1) / 2, (b + 1) / 2)` is `(a, b)`. -/
theorem sampleOffset_of_offset (a b : ℝ) :
    sampleOffset (⟨(a + 1) / 2, (b + 1) / 2⟩ : Point2f ℝ) = ⟨a, b⟩ := by
  unfold sampleOffset
  have h1 : 2 * ((a + 1) / 2) - 1 = a := by ring
  have h2 : 2 * ((b + 1) / 2) - 1 = b := by ring
  rw [h1, h2]

/-- The sample `((a + 1) / 2, (b + 1) / 2)` lies in the closed unit square when
`|b| ≤ |a| ≤ 1`. -/
theorem sample_in_square (a b : ℝ) (ha : |a| ≤ 1) (hb : |b| ≤ |a|) :
    0 ≤ (a + 1) / 2 ∧ (a + 1) / 2 ≤ 1 ∧ 0 ≤ (b + 1) / 2 ∧ (b + 1) / 2 ≤ 1 := by
  obtain ⟨h1, h2⟩ := abs_le.mp ha
  obtain ⟨h3, h4⟩ := abs_le.mp (hb.trans ha)
  refine ⟨by linarith, by linarith, by linarith, by linarith⟩

/-- For an angle `t` of `[-π/4, π/4]`, `r * (4 * t / π)` is at most `r` in
absolute value, strictly when `r ≠ 0` and `t` is in the open interval. -/
theorem abs_scaled_le (r t : ℝ) (h1 : -(Real.pi / 4) ≤ t) (h2 : t ≤ Real.pi / 4) :
    |r * (4 * t / Real.pi)| ≤ |r| ∧
      (r ≠ 0 → -(Real.pi / 4) < t → t < Real.pi / 4 → |r * (4 * t / Real.pi)| < |r|) := by
  have hpi := Real.pi_pos
  have hq : |4 * t / Real.pi| ≤ 1 := by
    rw [abs_le]
    constructor
    · rw [le_div_iff₀ hpi]
      linarith
    · rw [div_le_iff₀ hpi]
      linarith
  constructor
  · rw [abs_mul]
    calc |r| * |4 * t / Real.pi| ≤ |r| * 1 := mul_le_mul_of_nonneg_left hq (abs_nonneg r)
      _ = |r| := mul_one _
  · intro hr h1' h2'
    have hq' : |4 * t / Real.pi| < 1 := by
      rw [abs_lt]
      constructor
      · rw [lt_div_iff₀ hpi]
        linarith
      · rw [div_lt_iff₀ hpi]
        linarith
    rw [abs_mul]
    calc |r| * |4 * t / Real.pi| < |r| * 1 := mul_lt_mul_of_pos_left hq' (abs_pos.mpr hr)
      _ = |r| := mul_one _

/-- The angle recovered from the offset `(r, r * (4 * t / π))`. -/
theorem angle_of_scaled (r t : ℝ) (hr : r ≠ 0) :
    Real.pi / 4 * (r * (4 * t / Real.pi) / r) = t := by
  have hpi : Real.pi ≠ 0 := Real.pi_pos.ne'
  field_simp
  ring

/-- Every point of the closed unit disk of the plane `z = 0` is the image of a
sample of the closed unit square. -/
theorem disk_surjective (X Y : ℝ) (h : X ^ 2 + Y ^ 2 ≤ 1) :
    ∃ s : Point2f ℝ, (0 ≤ s.x ∧ s.x ≤ 1 ∧ 0 ≤ s.y ∧ s.y ≤ 1)
      ∧ sampling_SquareToDiskConcentric s = ⟨X, Y, 0⟩ := by
  by_cases hz : X = 0 ∧ Y = 0
  · refine ⟨⟨1 / 2, 1 / 2⟩, by norm_num, ?_⟩
    rw [hz.1, hz.2]
    exact disk_origin _ (by unfold sampleOffset; norm_num)
  by_cases hb : |X| > |Y|
  · have hX := first_branch_divisor_ne_zero X Y hb
    obtain ⟨r, t, hr2, hr0, ht1, ht2, hstrict, hc, hs⟩ := polar_inverse X Y hX hb.le
    obtain ⟨ht1', ht2'⟩ := hstrict hb
    have hr1 : |r| ≤ 1 := abs_le_of_sq_le_sq (by rw [hr2]; linarith) zero_le_one
    obtain ⟨hle, hlt⟩ := abs_scaled_le r t ht1 ht2
    have hbr : |(sampleOffset (⟨(r + 1) / 2, (r * (4 * t / Real.pi) + 1) / 2⟩ : Point2f ℝ)).x|
        > |(sampleOffset (⟨(r + 1) / 2, (r * (4 * t / Real.pi) + 1) / 2⟩ : Point2f ℝ)).y| := by
      rw [sampleOffset_of_offset]
      exact hlt hr0 ht1' ht2'
    refine ⟨⟨(r + 1) / 2, (r * (4 * t / Real.pi) + 1) / 2⟩, sample_in_square _ _ hr1 hle, ?_⟩
    rw [disk_first_branch _ hbr, sampleOffset_of_offset]
    simp only [angle_of_scaled r t hr0, hc, hs]
  · have hY := else_branch_divisor_ne_zero X Y hz hb
    obtain ⟨r, t, hr2, hr0, ht1, ht2, _, hc, hs⟩ := polar_inverse Y X hY (not_lt.mp hb)
    have hr1 : |r| ≤ 1 := abs_le_of_sq_le_sq (by rw [hr2]; linarith) zero_le_one
    obtain ⟨hle, _⟩ := abs_scaled_le r t ht1 ht2
    have h0 : ¬ ((sampleOffset (⟨(r * (4 * t / Real.pi) + 1) / 2, (r + 1) / 2⟩ : Point2f ℝ)).x = 0
        ∧ (sampleOffset (⟨(r * (4 * t / Real.pi) + 1) / 2, (r + 1) / 2⟩ : Point2f ℝ)).y = 0) := by
      rw [sampleOffset_of_offset]
      exact fun h => hr0 h.2
    have hbr : ¬ (|(sampleOffset (⟨(r * (4 * t / Real.pi) + 1) / 2, (r + 1) / 2⟩ :
          Point2f ℝ)).x|
        > |(sampleOffset (⟨(r * (4 * t / Real.pi) + 1) / 2, (r + 1) / 2⟩ : Point2f ℝ)).y|) := by
      rw [sampleOffset_of_offset]
      exact not_lt.mpr hle
    obtain ⟨b1, b2, b3, b4⟩ := sample_in_square _ _ hr1 hle
    refine ⟨⟨(r * (4 * t / Real.pi) + 1) / 2, (r + 1) / 2⟩, ⟨b3, b4, b1, b2⟩, ?_⟩
    rw [disk_else_branch _ h0 hbr, sampleOffset_of_offset]
    simp only [angle_of_scaled r t hr0, hc, hs]

/-- C14. `sampling_SquareToDiskConcentric` is a bijection from the closed unit
square `[0,1]²` onto the closed unit disk of the plane `z = 0`: every sample of
the square is sent into the disk, distinct samples are sent to distinct points,
and every `(x, y, 0)` with `x² + y² ≤ 1` is the image of a sample of the
square. -/
theorem sampling_SquareToDiskConcentric_bijection :
    Set.BijOn (fun s : Point2f ℝ => sampling_SquareToDiskConcentric s)
      {s | 0 ≤ s.x ∧ s.x ≤ 1 ∧ 0 ≤ s.y ∧ s.y ≤ 1}
      {p | p.x ^ 2 + p.y ^ 2 ≤ 1 ∧ p.z = 0} := by
  refine ⟨?_, ?_, ?_⟩
  · intro s hs
    obtain ⟨h1, h2, h3, h4⟩ := hs
    refine ⟨?_, disk_z_zero s⟩
    rw [sampling_SquareToDiskConcentric_radius_sq]
    have hx : |(sampleOffset s).x| ≤ 1 := by
      unfold sampleOffset
      rw [abs_le]
      constructor
      · simp only
        linarith
      · simp only
        linarith
    have hy : |(sampleOffset s).y| ≤ 1 := by
      unfold sampleOffset
      rw [abs_le]
      constructor
      · simp only
        linarith
      · simp only
        linarith
    have hmax : max |(sampleOffset s).x| |(sampleOffset s).y| ≤ 1 := max_le hx hy
    have hnn : 0 ≤ max |(sampleOffset s).x| |(sampleOffset s).y| :=
      le_trans (abs_nonneg _) (le_max_left _ _)
    nlinarith
  · intro s _ s' _ h
    exact disk_injective s s' h
  · rintro ⟨X, Y, Z⟩ ⟨hXY, hZ⟩
    simp only at hXY hZ
    obtain ⟨s, hs, hval⟩ := disk_surjective X Y hXY
    refine ⟨s, hs, ?_⟩
    rw [hZ]
    exact hval

end Bijection

end PathTracer
